import Mathlib

/-!
Verification development for the md-summarizer repository.

The relevant Python modules are shallowly embedded here:
* `src/md_parser.py` — `Section`, `MarkdownParser._split_at_level`, `MarkdownParser.parse`,
  `MarkdownParser._make_key`;
* `src/md_summarizer.py` — `MarkdownSummarizer.summarize`, `_process_sections`,
  `_process_section`, `_combine_sections`;
* `src/openai_client.py` — `OpenAIClient.summarize_section` (its input guard and
  header-level rewrite; the network call and token counter are abstract parameters);
* `src/converter.py` — `MarkdownToYamlConverter._merge_yaml_sections` (the merge loop,
  with the YAML codec abstracted into already-decoded fragments) and `_deep_merge`.

Python strings are modelled as `String` at interfaces and as `List Char` internally.
Python's character-offset slicing in `_split_at_level` always slices at line starts,
so it is modelled by the equivalent slicing of the `splitlines` list.  `str.strip`
composed with `splitlines` is modelled line-wise by `stripLines`.  Whitespace is
`Char.isWhitespace` (space, tab, CR, LF), matching Python's `\s`/`strip` on the
character sets that occur here.
-/

namespace MD

/-- Python `str.splitlines` on a `\n`-separated string: no trailing empty entry for a
trailing newline, and `""` gives `[]`. -/
def splitLinesChars : List Char → List (List Char)
  | [] => []
  | c :: cs =>
    if c = '\n' then [] :: splitLinesChars cs
    else (c :: (splitLinesChars cs).headI) :: (splitLinesChars cs).tail

/-- `'\n'.join` on character lists. -/
def joinLinesChars : List (List Char) → List Char
  | [] => []
  | [l] => l
  | l :: ls => l ++ '\n' :: joinLinesChars ls

def trimLeftChars (l : List Char) : List Char := l.dropWhile Char.isWhitespace

def trimRightChars (l : List Char) : List Char :=
  (l.reverse.dropWhile Char.isWhitespace).reverse

/-- Python `str.strip`. -/
def trimChars (l : List Char) : List Char := trimRightChars (trimLeftChars l)

/-- Python `str.strip` on `String`. -/
def pyStrip (s : String) : String := ⟨trimChars s.data⟩

/-- Characters kept by `_make_key`'s `[^a-z0-9]` complement (after lowercasing). -/
def isKeyAlnum (c : Char) : Bool := ('a' ≤ c && c ≤ 'z') || ('0' ≤ c && c ≤ '9')

/-- Collapse each run of consecutive `'_'` to a single `'_'` (the `re.sub(r'_+', '_', ·)`
step; the preceding `re.sub(r'[^a-z0-9]+', '_', ·)` is modelled as a character map
followed by this collapse, which replaces each maximal non-alphanumeric run by one `'_'`). -/
def collapseUnderscores : List Char → List Char
  | [] => []
  | c :: rest =>
    match collapseUnderscores rest with
    | [] => [c]
    | d :: ds => if c = '_' ∧ d = '_' then d :: ds else c :: d :: ds

/-- `MarkdownParser._make_key`: lowercase, non-alphanumeric runs to `'_'`, strip `'_'`. -/
def makeKey (title : String) : String :=
  let lowered := title.data.map Char.toLower
  let repl := lowered.map fun c => if isKeyAlnum c then c else '_'
  let collapsed := collapseUnderscores repl
  ⟨((collapsed.dropWhile (· = '_')).reverse.dropWhile (· = '_')).reverse⟩

/-- The regex `^(#{1,6})\s` of `MarkdownParser.parse`, applied to a stripped line:
returns the marker depth when the line is a structural heading, i.e. when the
leading `'#'` run has length 1–6 and is followed by a whitespace character. -/
def headingRunDepth (s : List Char) : Option Nat :=
  let n := (s.takeWhile (· = '#')).length
  if 1 ≤ n ∧ n ≤ 6 ∧ s.drop n ≠ [] ∧ (s.drop n).headI.isWhitespace then some n
  else none

/-- The regex `^#{level}\s+(.+)$` of `MarkdownParser._split_at_level`, applied to a
stripped line: returns the captured title when the line starts with exactly `level`
markers followed by at least one whitespace character and a nonempty remainder. -/
def matchHeadingTitle (level : Nat) (s : List Char) : Option (List Char) :=
  if s.take level = List.replicate level '#' ∧ s.drop level ≠ [] ∧
      (s.drop level).headI.isWhitespace ∧
      (s.drop level).dropWhile Char.isWhitespace ≠ [] then
    some ((s.drop level).dropWhile Char.isWhitespace)
  else none

/-- The heading/fence scan of `MarkdownParser.parse`: marker depths of all structural
headings, skipping lines inside triple-backtick code fences. -/
def scanDepths : List (List Char) → Bool → List Nat
  | [], _ => []
  | l :: ls, inCode =>
    let stripped := trimChars l
    if stripped.take 3 = "```".data then scanDepths ls (!inCode)
    else if inCode then scanDepths ls inCode
    else
      match headingRunDepth stripped with
      | some n => n :: scanDepths ls inCode
      | none => scanDepths ls inCode

/-- The position scan of `MarkdownParser._split_at_level`: line indices and titles of
headings at exactly `level`, skipping lines inside triple-backtick code fences. -/
def scanHeadPositions (level : Nat) : List (List Char) → Nat → Bool → List (Nat × List Char)
  | [], _, _ => []
  | l :: ls, i, inCode =>
    let stripped := trimChars l
    if stripped.take 3 = "```".data then scanHeadPositions level ls (i + 1) (!inCode)
    else if inCode then scanHeadPositions level ls (i + 1) inCode
    else
      match matchHeadingTitle level stripped with
      | some t => (i, t) :: scanHeadPositions level ls (i + 1) inCode
      | none => scanHeadPositions level ls (i + 1) inCode

/-- Pair each heading position with the start of the next heading (or the line count):
the chunk boundaries of `_split_at_level`. -/
def chunkRanges : List (Nat × List Char) → Nat → List (Nat × Nat × List Char)
  | [], _ => []
  | [(i, t)], totalLines => [(i, totalLines, t)]
  | (i, t) :: (j, u) :: rest, totalLines => (i, j, t) :: chunkRanges ((j, u) :: rest) totalLines

def stripLeadingLines : List (List Char) → List (List Char)
  | [] => []
  | l :: ls => if trimChars l = [] then stripLeadingLines ls else trimLeftChars l :: ls

def stripTrailingRev : List (List Char) → List (List Char)
  | [] => []
  | l :: ls => if trimChars l = [] then stripTrailingRev ls else trimRightChars l :: ls

/-- Line-wise model of Python `str.strip` followed by `splitlines`: drop leading and
trailing all-whitespace lines and trim the outermost remaining line ends. -/
def stripLines (ls : List (List Char)) : List (List Char) :=
  (stripTrailingRev (stripLeadingLines ls).reverse).reverse

/-- `Section` of `src/md_parser.py`: title, own content, level, ordered children keyed
by normalized title (Python `Dict[str, Section]` as an insertion-ordered list). -/
structure Section where
  title : String
  content : String
  level : Int
  sections : List (String × Section)
deriving Repr

def hasKeyB {α : Type} (d : List (String × α)) (k : String) : Bool :=
  d.any fun p => p.1 == k

/-- Python `dict` assignment `d[k] = v`: replace in place if the key exists, else append. -/
def setKey {α : Type} (d : List (String × α)) (k : String) (v : α) : List (String × α) :=
  if hasKeyB d k then d.map fun p => if p.1 = k then (k, v) else p
  else d ++ [(k, v)]

/-- Python `dict` built from a pair list (dict comprehension): first-occurrence
position, last value wins on duplicate keys. -/
def dictOfList {α : Type} (l : List (String × α)) : List (String × α) :=
  l.foldl (fun acc p => setKey acc p.1 p.2) []

def lookupKey {α : Type} : List (String × α) → String → Option α
  | [], _ => none
  | (k, v) :: rest, key => if k = key then some v else lookupKey rest key

/-- `MarkdownParser._split_at_level`, with the recursion depth made explicit: the
caller passes `6 - level` so that the `level < 6` recursion guard of the source is
exactly the `fuel` pattern. -/
def splitAtLevelCore : Nat → String → Nat → List Section
  | fuel, content, level =>
    let lines := splitLinesChars content.data
    let positions := scanHeadPositions level lines 0 false
    (chunkRanges positions lines.length).map fun r =>
      let chunkLines := (lines.drop r.1).take (r.2.1 - r.1)
      let contentLines := (stripLines chunkLines).drop 1
      let sectionContent : String := ⟨joinLinesChars contentLines⟩
      let subs :=
        match fuel with
        | 0 => []
        | f + 1 => if level < 6 then splitAtLevelCore f sectionContent (level + 1) else []
      { title := ⟨r.2.2⟩, content := sectionContent, level := (level : Int),
        sections := dictOfList (subs.map fun s => (makeKey s.title, s)) }

def splitAtLevel (content : String) (level : Nat) : List Section :=
  splitAtLevelCore (6 - level) content level

/-- Python `min` over a nonempty list (`[]` never reaches it in `parse`). -/
def pyMinList : List Nat → Nat
  | [] => 0
  | x :: xs => xs.foldl min x

mutual
/-- The `normalize_levels` closure of `MarkdownParser.parse`. -/
def normalizeSection (adj : Int) : Section → Section
  | ⟨t, c, l, subs⟩ => ⟨t, c, l - adj, normalizeSubs adj subs⟩
def normalizeSubs (adj : Int) : List (String × Section) → List (String × Section)
  | [] => []
  | (k, s) :: rest => (k, normalizeSection adj s) :: normalizeSubs adj rest
end

/-- `MarkdownParser.parse`. -/
def parse (content : String) : List (String × Section) :=
  if trimChars content.data = [] then []
  else
    let lines := splitLinesChars content.data
    let depths := scanDepths lines false
    if depths = [] then
      [("root", { title := "root", content := content, level := 1, sections := [] })]
    else
      let minLevel := pyMinList depths
      let secs := splitAtLevel content minLevel
      let adjusted := secs.map (normalizeSection ((minLevel : Int) - 1))
      dictOfList (adjusted.map fun s => (makeKey s.title, s))

/-- The summarization oracle: `summarize_section(content, level, child_summaries)`,
which may fail. -/
def Oracle : Type := String → Int → Option (List String) → Except String String

mutual
/-- `MarkdownSummarizer._process_section`: children first (the `asyncio.gather`
fan-out is modelled by the fold that keys results by task order, which is exactly
how `dict(zip(keys, processed))` re-associates them), then the node's own content
if nonempty. -/
def processSection (o : Oracle) : Section → Except String Section
  | ⟨t, c, l, subs⟩ => do
    let kids ← processSectionList o subs
    let childSummaries : Option (List String) :=
      if kids.isEmpty then none else some (kids.map fun p => p.2.content)
    let c' ← if c ≠ "" then o c l childSummaries else pure c
    pure ⟨t, c', l, kids⟩
def processSectionList (o : Oracle) : List (String × Section) → Except String (List (String × Section))
  | [] => pure []
  | (k, s) :: rest => do
    let s' ← processSection o s
    let rest' ← processSectionList o rest
    pure ((k, s') :: rest')
end

/-- `MarkdownSummarizer._process_sections`. -/
def processSections (o : Oracle) (sections : List (String × Section)) :
    Except String (List (String × Section)) :=
  processSectionList o sections

/-- Python `'#' * level` (an `int` level `≤ 0` yields the empty string). -/
def hashMarks (l : Int) : String := ⟨List.replicate l.toNat '#'⟩

def joinSep (sep : String) (parts : List String) : String :=
  ⟨List.intercalate sep.data (parts.map String.data)⟩

mutual
/-- The `flatten_section` closure of `MarkdownSummarizer._combine_sections`. -/
def flattenSection : Section → List String
  | ⟨t, c, l, subs⟩ =>
    (if subs.isEmpty then [hashMarks l ++ " " ++ t, c, "---"]
     else if l ≤ 2 then [hashMarks l ++ " " ++ t]
     else []) ++ flattenSectionList subs
def flattenSectionList : List (String × Section) → List String
  | [] => []
  | (_, s) :: rest => flattenSection s ++ flattenSectionList rest
end

/-- `MarkdownSummarizer._combine_sections`. -/
def combineSections (sections : List (String × Section)) : String :=
  joinSep "\n\n" ((flattenSectionList sections).filter fun p => pyStrip p != "")

/-- `MarkdownSummarizer.summarize`. -/
def summarize (o : Oracle) (content : String) : Except String String := do
  let sections := parse content
  let processed ← processSections o sections
  pure (combineSections processed)

/-- One line under `re.sub(r'^#{1,6}\s', header_marker + ' ', ·, flags=re.MULTILINE)`
of `OpenAIClient.summarize_section`: 1–6 leading markers followed by a whitespace
character are replaced by exactly `level` markers and a space. -/
def rewriteHeaderLine (level : Int) (line : String) : String :=
  let cs := line.data
  let n := (cs.takeWhile (· = '#')).length
  if 1 ≤ n ∧ n ≤ 6 ∧ cs.drop n ≠ [] ∧ (cs.drop n).headI.isWhitespace then
    ⟨(hashMarks level).data ++ ' ' :: (cs.drop n).tail⟩
  else line

/-- The header-level rewrite of `OpenAIClient.summarize_section`, line by line. -/
def forceHeaderLevelsLines (level : Int) (lines : List String) : List String :=
  lines.map (rewriteHeaderLine level)

/-- A markdown heading line in the sense of the rewrite regex `^#{1,6}\s`: the depth
of the leading marker run when the raw line starts with 1–6 markers followed by a
whitespace character. -/
def headingDepthRaw (line : String) : Option Nat :=
  let cs := line.data
  let n := (cs.takeWhile (· = '#')).length
  if 1 ≤ n ∧ n ≤ 6 ∧ cs.drop n ≠ [] ∧ (cs.drop n).headI.isWhitespace then some n
  else none

/-- Split on `'\n'` keeping all (also trailing empty) parts, so that joining is exact. -/
def splitKeepNl : List Char → List (List Char)
  | [] => [[]]
  | c :: cs =>
    if c = '\n' then [] :: splitKeepNl cs
    else (c :: (splitKeepNl cs).headI) :: (splitKeepNl cs).tail

def forceHeaderLevels (level : Int) (s : String) : String :=
  joinSep "\n" (forceHeaderLevelsLines level ((splitKeepNl s.data).map fun l => (⟨l⟩ : String)))

/-- `OpenAIClient.summarize_section`: the empty-content guard, the token-limit check
(`count_tokens` is the abstract `estimateTokens`), the model call (abstract
`modelRespond`), then the header-level rewrite of the model's answer. -/
def summarizeSection (estimateTokens : String → Nat) (maxTokens : Nat)
    (modelRespond : String → Int → Option (List String) → Except String String)
    (content : String) (level : Int) (childSummaries : Option (List String)) :
    Except String String :=
  if content = "" ∨ pyStrip content = "" then .error "content cannot be empty"
  else if estimateTokens content > maxTokens then
    .error "Content length exceeds model maximum"
  else do
    let result ← modelRespond content level childSummaries
    pure (forceHeaderLevels level result)

/-- A decoded YAML value: a scalar or a nested mapping (insertion-ordered). -/
inductive YVal where
  | str : String → YVal
  | dict : List (String × YVal) → YVal
deriving Repr

/-- Python `dict.update`: assign each entry of `d2`, in order, into `d1`. -/
def updateDict (d1 d2 : List (String × YVal)) : List (String × YVal) :=
  d2.foldl (fun acc p => setKey acc p.1 p.2) d1

/-- `MarkdownToYamlConverter._merge_yaml_sections`, with the YAML codec abstracted:
each fragment is either a decoded mapping or `none` (blank, unparsable, or falsy —
all of which the loop skips).  Decoded fragments are merged with `dict.update`. -/
def mergeYamlSections (frags : List (Option (List (String × YVal)))) : List (String × YVal) :=
  frags.foldl
    (fun acc f =>
      match f with
      | some d => updateDict acc d
      | none => acc)
    []

/-- The key normalization of `_deep_merge`: `title.lower().strip().replace(' ', '_')`. -/
def normTitleKey (t : String) : String :=
  ⟨(trimChars (t.data.map Char.toLower)).map fun c => if c = ' ' then '_' else c⟩

mutual
/-- `MarkdownToYamlConverter._deep_merge` (functional form; `none` models a raised
exception: `.lower()` on a non-string title, or item assignment on a non-mapping). -/
def deepMerge : List (String × YVal) → List (String × YVal) → Option (List (String × YVal))
  | d1, d2 =>
    match lookupKey d2 "title" with
    | some (.str t) =>
      let key := normTitleKey t
      let d1a := if hasKeyB d1 key then d1 else d1 ++ [(key, .dict [])]
      (match lookupKey d2 "content" with
       | none => some d1a
       | some c =>
         match lookupKey d1a key with
         | some (.dict inner) => some (setKey d1a key (.dict (setKey inner "content" c)))
         | _ => none)
    | some (.dict _) => none
    | none => deepMergeEntries d1 d2
termination_by d1 d2 => (sizeOf d2, 1)
def deepMergeEntries : List (String × YVal) → List (String × YVal) → Option (List (String × YVal))
  | d1, [] => some d1
  | d1, (k, v) :: rest =>
    match lookupKey d1 k, v with
    | some (.dict a), .dict b =>
      match deepMerge a b with
      | some m => deepMergeEntries (setKey d1 k (.dict m)) rest
      | none => none
    | _, _ => deepMergeEntries (setKey d1 k v) rest
termination_by d1 l => (sizeOf l, 0)
end

/-- Line indices at which each group of a heading-plus-body document starts (proof
bookkeeping for the position scan). -/
def groupOffsets : Nat → List (List Char × List (List Char)) → List (Nat × List Char)
  | _, [] => []
  | i, (t, b) :: rest => (i, t) :: groupOffsets (i + 1 + b.length) rest

/-- The lines of a flat document made of level-1 heading lines, each followed by its
body lines. -/
def docLines (gs : List (List Char × List (List Char))) : List (List Char) :=
  gs.flatMap fun g => ('#' :: ' ' :: g.1) :: g.2

/-- The oracle call for this content and level fails whatever child summaries are
passed. -/
def failsOn (o : Oracle) (c : String) (l : Int) : Prop :=
  ∀ cs, ∃ e, o c l cs = .error e

/-- Some node of the tree whose oracle call is actually made during processing
fails: either this node's own nonempty content, or a node below it. -/
inductive Doomed (o : Oracle) : Section → Prop where
  | here (s : Section) : s.content ≠ "" → failsOn o s.content s.level → Doomed o s
  | child (s : Section) (p : String × Section) : p ∈ s.sections → Doomed o p.2 → Doomed o s

/-- Membership in the tree returned by `parse`: a top-level section, or a child of a
section in the tree. -/
inductive InParseTree (doc : String) : Section → Prop where
  | root (p : String × Section) : p ∈ parse doc → InParseTree doc p.2
  | child (s : Section) (p : String × Section) :
      InParseTree doc s → p ∈ s.sections → InParseTree doc p.2

/-- Every child's heading line (at some marker depth) still occurs among the lines of
this section's own content. -/
def HeadingPresent (s : Section) : Prop :=
  ∀ p ∈ s.sections, ∃ line ∈ splitLinesChars s.content.data, ∃ d,
    matchHeadingTitle d (trimChars line) = some p.2.title.data

/-- `HeadingPresent`, hereditarily through the tree. -/
inductive DeepHeadingPresent : Section → Prop where
  | mk (s : Section) : HeadingPresent s →
      (∀ p ∈ s.sections, DeepHeadingPresent p.2) → DeepHeadingPresent s

/-- Every node's content is empty or contains a non-whitespace character,
hereditarily (the shape `parse` always produces). -/
inductive ContentWF : Section → Prop where
  | mk (s : Section) : (s.content = "" ∨ trimChars s.content.data ≠ []) →
      (∀ p ∈ s.sections, ContentWF p.2) → ContentWF s

/-! ### Basic facts about the Python-dict model -/

theorem mem_setKey {α : Type} {d : List (String × α)} {k : String} {v : α} {p : String × α}
    (h : p ∈ setKey d k v) : p ∈ d ∨ p = (k, v) := by
  unfold setKey at h
  cases hk : hasKeyB d k with
  | true =>
    rw [hk] at h
    simp only [if_true, List.mem_map] at h
    obtain ⟨q, hq, he⟩ := h
    by_cases hq1 : q.1 = k
    · rw [if_pos hq1] at he
      right; exact he.symm
    · rw [if_neg hq1] at he
      left; exact he ▸ hq
  | false =>
    rw [hk] at h
    simp only [Bool.false_eq_true, if_false, List.mem_append, List.mem_singleton] at h
    exact h

theorem mem_foldl_setKey {α : Type} {p : String × α} :
    ∀ (l acc : List (String × α)),
      p ∈ List.foldl (fun a q => setKey a q.1 q.2) acc l → p ∈ acc ∨ p ∈ l := by
  intro l
  induction l with
  | nil => intro acc h; exact Or.inl h
  | cons q rest ih =>
    intro acc h
    rcases ih (setKey acc q.1 q.2) h with h' | h'
    · rcases mem_setKey h' with h'' | h''
      · exact Or.inl h''
      · right; rw [h'']; exact List.mem_cons_self _ _
    · right; exact List.mem_cons_of_mem _ h'

theorem mem_dictOfList {α : Type} {l : List (String × α)} {p : String × α}
    (h : p ∈ dictOfList l) : p ∈ l := by
  rcases mem_foldl_setKey l [] h with h' | h'
  · cases h'
  · exact h'

theorem hasKeyB_false_of_not_mem_keys {α : Type} {d : List (String × α)} {k : String}
    (h : k ∉ d.map Prod.fst) : hasKeyB d k = false := by
  unfold hasKeyB
  simp only [List.any_eq_false]
  intro p hp
  simp only [beq_iff_eq]
  intro he
  exact h (List.mem_map.mpr ⟨p, hp, he⟩)

theorem setKey_eq_append {α : Type} {d : List (String × α)} {k : String} {v : α}
    (h : k ∉ d.map Prod.fst) : setKey d k v = d ++ [(k, v)] := by
  unfold setKey
  rw [hasKeyB_false_of_not_mem_keys h]
  simp

theorem foldl_setKey_eq_append {α : Type} :
    ∀ (l acc : List (String × α)),
      ((acc ++ l).map Prod.fst).Nodup →
      List.foldl (fun a q => setKey a q.1 q.2) acc l = acc ++ l := by
  intro l
  induction l with
  | nil => intro acc _; simp
  | cons q rest ih =>
    intro acc hnd
    have hq : q.1 ∉ acc.map Prod.fst := by
      intro hmem
      rw [List.map_append, List.nodup_append] at hnd
      have : q.1 ∈ (q :: rest).map Prod.fst := by simp
      exact hnd.2.2 hmem this
    simp only [List.foldl_cons]
    rw [setKey_eq_append hq]
    have := ih (acc ++ [q]) (by simpa using hnd)
    simpa using this

theorem dictOfList_eq_self {α : Type} {l : List (String × α)}
    (h : (l.map Prod.fst).Nodup) : dictOfList l = l := by
  unfold dictOfList
  have := foldl_setKey_eq_append l [] (by simpa using h)
  simpa using this

theorem lookupKey_eq_none_of_hasKeyB_false {α : Type} :
    ∀ (d : List (String × α)) (k : String), hasKeyB d k = false → lookupKey d k = none := by
  intro d k h
  induction d with
  | nil => rfl
  | cons q rest ih =>
    unfold hasKeyB at h
    simp only [List.any_cons, Bool.or_eq_false_iff, beq_eq_false_iff_ne] at h
    simp only [lookupKey, if_neg h.1]
    exact ih h.2

theorem lookupKey_map_replace {α : Type} {k : String} {v : α} :
    ∀ (d : List (String × α)), hasKeyB d k = true →
      lookupKey (d.map fun p => if p.1 = k then (k, v) else p) k = some v := by
  intro d h
  induction d with
  | nil => simp [hasKeyB] at h
  | cons q rest ih =>
    by_cases hq : q.1 = k
    · simp only [List.map_cons, if_pos hq]
      simp [lookupKey]
    · simp only [List.map_cons, if_neg hq]
      simp only [lookupKey, if_neg hq]
      apply ih
      unfold hasKeyB at h
      simp only [List.any_cons, Bool.or_eq_true, beq_iff_eq] at h
      rcases h with h | h
      · exact absurd h hq
      · unfold hasKeyB
        simpa using h

theorem lookupKey_append_right {α : Type} :
    ∀ (d1 d2 : List (String × α)) (k : String),
      lookupKey d1 k = none → lookupKey (d1 ++ d2) k = lookupKey d2 k := by
  intro d1 d2 k h
  induction d1 with
  | nil => simp
  | cons q rest ih =>
    simp only [lookupKey] at h
    by_cases hq : q.1 = k
    · simp [hq] at h
    · simp only [List.cons_append, lookupKey, hq, if_false] at *
      exact ih h

theorem lookupKey_setKey_self {α : Type} :
    ∀ (d : List (String × α)) (k : String) (v : α), lookupKey (setKey d k v) k = some v := by
  intro d k v
  unfold setKey
  cases hk : hasKeyB d k with
  | true =>
    simp only [if_true]
    exact lookupKey_map_replace d hk
  | false =>
    simp only [Bool.false_eq_true, if_false]
    rw [lookupKey_append_right d [(k, v)] k (lookupKey_eq_none_of_hasKeyB_false d k hk)]
    simp [lookupKey]

theorem lookupKey_isSome_of_hasKeyB {α : Type} :
    ∀ (d : List (String × α)) (k : String), hasKeyB d k = true → (lookupKey d k).isSome := by
  intro d k h
  induction d with
  | nil => simp [hasKeyB] at h
  | cons q rest ih =>
    unfold hasKeyB at h
    simp only [List.any_cons, Bool.or_eq_true, beq_iff_eq] at h
    by_cases hq : q.1 = k
    · simp [lookupKey, hq]
    · simp only [lookupKey, hq, if_false]
      rcases h with h | h
      · exact absurd h hq
      · apply ih
        unfold hasKeyB
        simpa using h

/-! ### C3: the combiner's treatment of nodes with children -/

/-- C3 counterexample: a level-3 node with a child emits no heading line at all in
`_combine_sections` — the claimed "heading-only, identical for level > 2" branch does
not exist, so the parent heading `### A` is absent from the flattened output. -/
theorem flatten_deep_parent_counterexample :
    flattenSection ⟨"A", "c", 3, [("b", ⟨"B", "d", 4, []⟩)]⟩ = ["#### B", "d", "---"] ∧
    "### A" ∉ flattenSection ⟨"A", "c", 3, [("b", ⟨"B", "d", 4, []⟩)]⟩ := by
  constructor
  · rfl
  · intro h
    rw [show flattenSection ⟨"A", "c", 3, [("b", ⟨"B", "d", 4, []⟩)]⟩
          = ["#### B", "d", "---"] from rfl] at h
    simp at h

/-- C3 amended: in the pre-order flattening, a node with children contributes only its
heading line when its level is at most 2 and contributes nothing of its own when its
level exceeds 2 (its heading is dropped); in both cases it then recurses into its
children.  Leaves contribute heading, content and the `---` separator. -/
theorem flatten_children_heading_policy (s : Section) (h : s.sections ≠ []) :
    flattenSection s =
      (if s.level ≤ 2 then [hashMarks s.level ++ " " ++ s.title] else [])
        ++ flattenSectionList s.sections := by
  cases s with
  | mk t c l subs =>
    have he : subs.isEmpty = false := by
      cases subs with
      | nil => exact absurd rfl h
      | cons a b => rfl
    rw [flattenSection]
    rw [he]
    simp

/-- Witness for `flatten_children_heading_policy` at a concrete section. -/
theorem flatten_children_heading_policy_witness :
    ([("b", (⟨"B", "d", 4, []⟩ : Section))] ≠ ([] : List (String × Section))) ∧
    flattenSection ⟨"A", "c", 3, [("b", ⟨"B", "d", 4, []⟩)]⟩ =
      (if (3 : Int) ≤ 2 then [hashMarks 3 ++ " " ++ "A"] else [])
        ++ flattenSectionList [("b", ⟨"B", "d", 4, []⟩)] :=
  ⟨by simp, flatten_children_heading_policy ⟨"A", "c", 3, [("b", ⟨"B", "d", 4, []⟩)]⟩ (by simp)⟩

/-! ### C8: the YAML merge engine -/

/-- C8 counterexample: the merge loop of `_merge_yaml_sections` merges decoded
fragments with a plain `dict.update`, so a fragment `{'title': 'Section 1',
'content': 'x'}` is stored under its literal top-level keys `title` and `content`;
no `section_1` key is created (the title-normalizing `_deep_merge` is not invoked
by the loop). -/
theorem mergeYamlSections_title_counterexample :
    mergeYamlSections [some [("title", .str "Section 1"), ("content", .str "x")]] =
      [("title", YVal.str "Section 1"), ("content", YVal.str "x")] ∧
    lookupKey (mergeYamlSections [some [("title", .str "Section 1"), ("content", .str "x")]])
      "section_1" = none :=
  ⟨rfl, rfl⟩

/-- C8 amended: the last-write-wins title rule is the behavior of the `_deep_merge`
helper (which `_merge_yaml_sections` never calls): a mapping with a string `title`
is merged under the lowercased, space-to-underscore key, its `content` stored at
`result[key]['content']`, overwriting any previous content at that key, without
error, provided any existing value at that key is itself a mapping. -/
theorem deepMerge_title_rule (d1 d2 : List (String × YVal)) (t : String) (c : YVal)
    (ht : lookupKey d2 "title" = some (.str t))
    (hc : lookupKey d2 "content" = some c)
    (hd : ∀ v, lookupKey d1 (normTitleKey t) = some v → ∃ inner, v = .dict inner) :
    ∃ res inner, deepMerge d1 d2 = some res ∧
      lookupKey res (normTitleKey t) = some (.dict inner) ∧
      lookupKey inner "content" = some c := by
  rw [deepMerge]
  rw [ht, hc]
  cases hk : hasKeyB d1 (normTitleKey t) with
  | true =>
    simp only [hk, if_true]
    have hsome := lookupKey_isSome_of_hasKeyB d1 (normTitleKey t) hk
    obtain ⟨v, hv⟩ := Option.isSome_iff_exists.mp hsome
    obtain ⟨inner, hinner⟩ := hd v hv
    rw [hv, hinner]
    exact ⟨_, _, rfl, lookupKey_setKey_self _ _ _, lookupKey_setKey_self _ _ _⟩
  | false =>
    simp only [hk, Bool.false_eq_true, if_false]
    have hnone : lookupKey d1 (normTitleKey t) = none :=
      lookupKey_eq_none_of_hasKeyB_false d1 (normTitleKey t) hk
    rw [lookupKey_append_right d1 [(normTitleKey t, .dict [])] (normTitleKey t) hnone]
    simp only [lookupKey, if_pos rfl]
    exact ⟨_, _, rfl, lookupKey_setKey_self _ _ _, lookupKey_setKey_self _ _ _⟩

/-- Witness for `deepMerge_title_rule`: a repeated title overwrites the stored
content (last-write-wins), without error. -/
theorem deepMerge_title_rule_witness :
    ∃ res inner,
      deepMerge [("section_1", .dict [("content", .str "old")])]
          [("title", .str "Section 1"), ("content", .str "new")] = some res ∧
      lookupKey res (normTitleKey "Section 1") = some (.dict inner) ∧
      lookupKey inner "content" = some (.str "new") :=
  deepMerge_title_rule _ _ _ _ rfl rfl
    (by
      intro v h
      rw [show lookupKey [("section_1", YVal.dict [("content", YVal.str "old")])]
            (normTitleKey "Section 1") = some (.dict [("content", .str "old")]) from rfl] at h
      exact ⟨_, (Option.some_inj.mp h).symm⟩)

/-! ### C10: the header-level rewrite of `summarize_section` -/

theorem takeWhile_hash_marker (n : Nat) (rest : List Char) :
    ((List.replicate n '#') ++ ' ' :: rest).takeWhile (· = '#') = List.replicate n '#' := by
  induction n with
  | zero =>
    rw [List.replicate_zero, List.nil_append, List.takeWhile_cons]
    rw [if_neg (by decide)]
  | succ m ih =>
    rw [List.replicate_succ, List.cons_append, List.takeWhile_cons]
    rw [if_pos (by decide)]
    rw [ih]

theorem headingDepthRaw_rewriteHeaderLine {level : Int} {line : String} {n0 : Nat}
    (h1 : 1 ≤ level) (h6 : level ≤ 6) (h : headingDepthRaw line = some n0) :
    headingDepthRaw (rewriteHeaderLine level line) = some level.toNat := by
  simp only [headingDepthRaw] at h
  simp only [rewriteHeaderLine]
  by_cases hn : 1 ≤ (line.data.takeWhile (· = '#')).length ∧
      (line.data.takeWhile (· = '#')).length ≤ 6 ∧
      line.data.drop (line.data.takeWhile (· = '#')).length ≠ [] ∧
      (line.data.drop (line.data.takeWhile (· = '#')).length).headI.isWhitespace
  · rw [if_pos hn]
    simp only [headingDepthRaw, hashMarks]
    rw [takeWhile_hash_marker]
    rw [List.length_replicate]
    have hdrop : (List.replicate level.toNat '#' ++ ' ' ::
        (line.data.drop (line.data.takeWhile (· = '#')).length).tail).drop level.toNat
        = ' ' :: (line.data.drop (line.data.takeWhile (· = '#')).length).tail := by
      have := List.drop_left (List.replicate level.toNat '#')
        (' ' :: (line.data.drop (line.data.takeWhile (· = '#')).length).tail)
      rwa [List.length_replicate] at this
    rw [hdrop]
    rw [if_pos ⟨by omega, by omega, by simp, by simp only [List.headI]; decide⟩]
  · rw [if_neg hn] at h
    cases h

theorem rewriteHeaderLine_of_depth_none {level : Int} {line : String}
    (h : headingDepthRaw line = none) : rewriteHeaderLine level line = line := by
  simp only [headingDepthRaw] at h
  simp only [rewriteHeaderLine]
  by_cases hn : 1 ≤ (line.data.takeWhile (· = '#')).length ∧
      (line.data.takeWhile (· = '#')).length ≤ 6 ∧
      line.data.drop (line.data.takeWhile (· = '#')).length ≠ [] ∧
      (line.data.drop (line.data.takeWhile (· = '#')).length).headI.isWhitespace
  · rw [if_pos hn] at h
    cases h
  · rw [if_neg hn]

/-- C10: the rewrite `re.sub(r'^#{1,6}\s', '#'*level + ' ', ·, MULTILINE)` of
`summarize_section` turns every line that begins with 1–6 markers followed by
whitespace into a line beginning with exactly `level` markers, and consequently
the rewritten summary contains no heading line at any depth other than `level`. -/
theorem forceHeaderLevels_uniform (level : Int) (h1 : 1 ≤ level) (h6 : level ≤ 6)
    (lines : List String) :
    (∀ line ∈ lines, ∀ n0, headingDepthRaw line = some n0 →
        headingDepthRaw (rewriteHeaderLine level line) = some level.toNat) ∧
    (∀ line ∈ forceHeaderLevelsLines level lines, ∀ k,
        headingDepthRaw line = some k → k = level.toNat) := by
  constructor
  · intro line _ n0 h
    exact headingDepthRaw_rewriteHeaderLine h1 h6 h
  · intro line hm k hk
    simp only [forceHeaderLevelsLines, List.mem_map] at hm
    obtain ⟨orig, _, rfl⟩ := hm
    cases ho : headingDepthRaw orig with
    | none =>
      rw [rewriteHeaderLine_of_depth_none ho, ho] at hk
      cases hk
    | some n0 =>
      have hr := headingDepthRaw_rewriteHeaderLine h1 h6 ho
      rw [hr] at hk
      exact (Option.some_inj.mp hk).symm

/-- Witness for `forceHeaderLevels_uniform` at level 2 on concrete lines. -/
theorem forceHeaderLevels_uniform_witness :
    ((1 : Int) ≤ 2 ∧ (2 : Int) ≤ 6) ∧
    ((∀ line ∈ ["# A", "x"], ∀ n0, headingDepthRaw line = some n0 →
        headingDepthRaw (rewriteHeaderLine 2 line) = some (2 : Int).toNat) ∧
     (∀ line ∈ forceHeaderLevelsLines 2 ["# A", "x"], ∀ k,
        headingDepthRaw line = some k → k = (2 : Int).toNat)) :=
  ⟨⟨by decide, by decide⟩, forceHeaderLevels_uniform 2 (by decide) (by decide) ["# A", "x"]⟩

/-! ### C7: level normalization in `parse` -/

theorem normalizeSection_level (adj : Int) (s : Section) :
    (normalizeSection adj s).level = s.level - adj := by
  cases s
  rw [normalizeSection]

theorem normalizeSection_sections (adj : Int) (s : Section) :
    (normalizeSection adj s).sections = normalizeSubs adj s.sections := by
  cases s
  rw [normalizeSection]

theorem mem_normalizeSubs {adj : Int} :
    ∀ {subs : List (String × Section)} {p : String × Section},
      p ∈ normalizeSubs adj subs → ∃ q ∈ subs, p = (q.1, normalizeSection adj q.2) := by
  intro subs
  induction subs with
  | nil => intro p h; cases h
  | cons q rest ih =>
    intro p h
    cases q with
    | mk k s =>
      rw [normalizeSubs] at h
      rcases List.mem_cons.mp h with h' | h'
      · exact ⟨(k, s), List.mem_cons_self _ _, h'⟩
      · obtain ⟨q', hq', he⟩ := ih h'
        exact ⟨q', List.mem_cons_of_mem _ hq', he⟩

theorem level_of_mem_splitAtLevelCore :
    ∀ (fuel : Nat) (content : String) (level : Nat) (s : Section),
      s ∈ splitAtLevelCore fuel content level → s.level = (level : Int) := by
  intro fuel content level s h
  rw [splitAtLevelCore] at h
  simp only [List.mem_map] at h
  obtain ⟨r, _, he⟩ := h
  rw [← he]

theorem child_level_of_mem_splitAtLevelCore :
    ∀ (fuel : Nat) (content : String) (level : Nat) (s : Section),
      s ∈ splitAtLevelCore fuel content level →
      ∀ p ∈ s.sections, p.2.level = (level : Int) + 1 := by
  intro fuel content level s h p hp
  cases fuel with
  | zero =>
    rw [splitAtLevelCore] at h
    simp only [List.mem_map] at h
    obtain ⟨r, _, he⟩ := h
    rw [← he] at hp
    simp only [List.map_nil] at hp
    cases mem_dictOfList hp
  | succ f =>
    rw [splitAtLevelCore] at h
    simp only [List.mem_map] at h
    obtain ⟨r, _, he⟩ := h
    rw [← he] at hp
    simp only at hp
    have hp' := mem_dictOfList hp
    simp only [List.mem_map] at hp'
    obtain ⟨s', hs', hpe⟩ := hp'
    by_cases hl : level < 6
    · rw [if_pos hl] at hs'
      have := level_of_mem_splitAtLevelCore f _ (level + 1) s' hs'
      rw [← hpe]
      rw [this]
      push_cast
      ring
    · rw [if_neg hl] at hs'
      cases hs'

/-- C7: when the shallowest heading depth found outside code fences is 2, every
top-level section of `parse` has normalized level 1 and each of its direct children
has normalized level 2 (all levels are shifted down by `minLevel - 1`). -/
theorem parse_normalizes_levels (doc : String)
    (hne : scanDepths (splitLinesChars doc.data) false ≠ [])
    (hmin : pyMinList (scanDepths (splitLinesChars doc.data) false) = 2) :
    ∀ p ∈ parse doc, p.2.level = 1 ∧ ∀ q ∈ p.2.sections, q.2.level = 2 := by
  intro p hp
  unfold parse at hp
  by_cases htrim : trimChars doc.data = []
  · rw [if_pos htrim] at hp
    cases hp
  · rw [if_neg htrim] at hp
    simp only [hmin, if_neg hne] at hp
    have hp' := mem_dictOfList hp
    simp only [List.mem_map] at hp'
    obtain ⟨s, hs, hpe⟩ := hp'
    obtain ⟨s0, hs0, hse⟩ := hs
    unfold splitAtLevel at hs0
    constructor
    · rw [← hpe]
      simp only
      rw [← hse, normalizeSection_level]
      rw [level_of_mem_splitAtLevelCore _ _ _ _ hs0]
      norm_num
    · intro q hq
      rw [← hpe] at hq
      simp only at hq
      rw [← hse, normalizeSection_sections] at hq
      obtain ⟨q0, hq0, hqe⟩ := mem_normalizeSubs hq
      rw [hqe]
      simp only
      rw [normalizeSection_level]
      have := child_level_of_mem_splitAtLevelCore _ _ _ _ hs0 q0 hq0
      rw [this]
      norm_num

/-- Witness for `parse_normalizes_levels` on a document whose shallowest heading is
`##`. -/
theorem parse_normalizes_levels_witness :
    (scanDepths (splitLinesChars ("## A\nx\n\n### B\ny" : String).data) false ≠ [] ∧
     pyMinList (scanDepths (splitLinesChars ("## A\nx\n\n### B\ny" : String).data) false) = 2) ∧
    ∀ p ∈ parse "## A\nx\n\n### B\ny", p.2.level = 1 ∧ ∀ q ∈ p.2.sections, q.2.level = 2 :=
  ⟨⟨by decide, by decide⟩, parse_normalizes_levels _ (by decide) (by decide)⟩

/-! ### C5: fail-fast propagation of oracle failures -/

theorem except_bind_error {α β : Type} (e : String) (f : α → Except String β) :
    (Except.error e >>= f) = Except.error e := rfl

theorem except_bind_ok {α β : Type} (a : α) (f : α → Except String β) :
    (Except.ok a >>= f) = f a := rfl

theorem processSectionList_error_of_mem (o : Oracle) :
    ∀ (lst : List (String × Section)) (p : String × Section), p ∈ lst →
      (∃ e, processSection o p.2 = .error e) →
      ∃ e, processSectionList o lst = .error e := by
  intro lst
  induction lst with
  | nil => intro p h; cases h
  | cons q rest ih =>
    intro p hp hfail
    cases q with
    | mk k s =>
      rcases List.mem_cons.mp hp with rfl | hp'
      · obtain ⟨e, he⟩ := hfail
        refine ⟨e, ?_⟩
        rw [processSectionList]
        rw [he, except_bind_error]
      · cases hh : processSection o s with
        | error e =>
          refine ⟨e, ?_⟩
          rw [processSectionList]
          rw [hh, except_bind_error]
        | ok s' =>
          obtain ⟨e, he⟩ := ih p hp' hfail
          refine ⟨e, ?_⟩
          rw [processSectionList]
          rw [hh, except_bind_ok, he, except_bind_error]

theorem processSection_error_of_doomed (o : Oracle) :
    ∀ (s : Section), Doomed o s → ∃ e, processSection o s = .error e := by
  intro s hd
  induction hd with
  | here s hc hf =>
    cases s with
    | mk t c l subs =>
      cases hk : processSectionList o subs with
      | error e =>
        refine ⟨e, ?_⟩
        rw [processSection]
        rw [hk, except_bind_error]
      | ok kids =>
        simp only at hc hf
        obtain ⟨e, he⟩ :=
          hf (if kids.isEmpty then none else some (kids.map fun p => p.2.content))
        refine ⟨e, ?_⟩
        rw [processSection]
        rw [hk, except_bind_ok]
        simp only [if_pos hc]
        rw [he, except_bind_error]
  | child s p hp _ ih =>
    cases s with
    | mk t c l subs =>
      simp only at hp
      obtain ⟨e', he'⟩ := processSectionList_error_of_mem o subs p hp ih
      refine ⟨e', ?_⟩
      rw [processSection]
      rw [he', except_bind_error]

mutual
theorem processSection_error_src (o : Oracle) :
    ∀ (s : Section) (e : String), processSection o s = .error e →
      ∃ c l cs, o c l cs = .error e
  | ⟨t, c, l, subs⟩, e, h => by
    rw [processSection] at h
    cases hk : processSectionList o subs with
    | error e' =>
      rw [hk, except_bind_error] at h
      cases h
      exact processSectionList_error_src o subs e hk
    | ok kids =>
      rw [hk, except_bind_ok] at h
      by_cases hc : c ≠ ""
      · rw [if_pos hc] at h
        cases ho : o c l (if kids.isEmpty then none else some (kids.map fun p => p.2.content)) with
        | error e' =>
          rw [ho, except_bind_error] at h
          cases h
          exact ⟨c, l, _, ho⟩
        | ok c' =>
          rw [ho, except_bind_ok] at h
          cases h
      · rw [if_neg hc] at h
        cases h
theorem processSectionList_error_src (o : Oracle) :
    ∀ (lst : List (String × Section)) (e : String), processSectionList o lst = .error e →
      ∃ c l cs, o c l cs = .error e
  | [], e, h => by
    rw [processSectionList] at h
    cases h
  | (k, s) :: rest, e, h => by
    rw [processSectionList] at h
    cases hh : processSection o s with
    | error e' =>
      rw [hh, except_bind_error] at h
      cases h
      exact processSection_error_src o s e hh
    | ok s' =>
      rw [hh, except_bind_ok] at h
      cases hr : processSectionList o rest with
      | error e' =>
        rw [hr, except_bind_error] at h
        cases h
        exact processSectionList_error_src o rest e hr
      | ok rest' =>
        rw [hr, except_bind_ok] at h
        cases h
end

/-- C5: if the oracle call of some node reached by processing fails (and all oracle
failures carry the error `e0`), the whole `summarize` call fails with `e0`: its
`Except` result is the bare error, so completed sibling summaries are discarded and
neither a tree nor any document text is returned. -/
theorem summarize_fails_on_oracle_failure (o : Oracle) (doc : String) (e0 : String)
    (honly : ∀ c l cs e, o c l cs = .error e → e = e0)
    (hdoom : ∃ p ∈ parse doc, Doomed o p.2) :
    summarize o doc = .error e0 := by
  obtain ⟨p, hp, hd⟩ := hdoom
  have hfail := processSection_error_of_doomed o p.2 hd
  obtain ⟨e, he⟩ := processSectionList_error_of_mem o (parse doc) p hp hfail
  obtain ⟨c, l, cs, ho⟩ := processSectionList_error_src o (parse doc) e he
  have : summarize o doc = .error e := by
    rw [summarize]
    unfold processSections
    rw [he, except_bind_error]
  rw [this, honly c l cs e ho]

/-- Witness for `summarize_fails_on_oracle_failure`: an always-failing oracle on a
one-section document makes the whole `summarize` fail with that error. -/
theorem summarize_fails_on_oracle_failure_witness :
    summarize (fun _ _ _ => Except.error "boom") "# A\nx" = .error "boom" :=
  summarize_fails_on_oracle_failure _ _ _
    (by intro c l cs e h; injection h with h'; exact h'.symm)
    ⟨("a", ⟨"A", "x", 1, []⟩),
      by rw [show parse "# A\nx" = [("a", ⟨"A", "x", 1, []⟩)] from rfl]; exact List.mem_singleton.mpr rfl,
      Doomed.here _ (by simp) (fun cs => ⟨"boom", rfl⟩)⟩

/-! ### C1: a section's content retains its children's chunks -/

theorem normalizeSection_title (adj : Int) (s : Section) :
    (normalizeSection adj s).title = s.title := by
  cases s
  rw [normalizeSection]

theorem normalizeSection_content (adj : Int) (s : Section) :
    (normalizeSection adj s).content = s.content := by
  cases s
  rw [normalizeSection]

theorem title_of_mem_scanHeadPositions {level : Nat} :
    ∀ (lines : List (List Char)) (i0 : Nat) (inCode : Bool) (i : Nat) (t : List Char),
      (i, t) ∈ scanHeadPositions level lines i0 inCode →
      ∃ line ∈ lines, matchHeadingTitle level (trimChars line) = some t := by
  intro lines
  induction lines with
  | nil => intro i0 inCode i t h; cases h
  | cons l ls ih =>
    intro i0 inCode i t h
    rw [scanHeadPositions] at h
    by_cases hf : (trimChars l).take 3 = "```".data
    · rw [if_pos hf] at h
      obtain ⟨line, hm, he⟩ := ih _ _ _ _ h
      exact ⟨line, List.mem_cons_of_mem _ hm, he⟩
    · rw [if_neg hf] at h
      cases hc : inCode with
      | true =>
        rw [hc] at h
        simp only [if_true] at h
        obtain ⟨line, hm, he⟩ := ih _ _ _ _ h
        exact ⟨line, List.mem_cons_of_mem _ hm, he⟩
      | false =>
        rw [hc] at h
        simp only [Bool.false_eq_true, if_false] at h
        cases hmt : matchHeadingTitle level (trimChars l) with
        | some t' =>
          rw [hmt] at h
          rcases List.mem_cons.mp h with h' | h'
          · cases h'
            exact ⟨l, List.mem_cons_self _ _, hmt⟩
          · obtain ⟨line, hm, he⟩ := ih _ _ _ _ h'
            exact ⟨line, List.mem_cons_of_mem _ hm, he⟩
        | none =>
          rw [hmt] at h
          obtain ⟨line, hm, he⟩ := ih _ _ _ _ h
          exact ⟨line, List.mem_cons_of_mem _ hm, he⟩

theorem pos_of_mem_chunkRanges :
    ∀ (ps : List (Nat × List Char)) (n : Nat) (r : Nat × Nat × List Char),
      r ∈ chunkRanges ps n → (r.1, r.2.2) ∈ ps := by
  intro ps
  induction ps with
  | nil => intro n r h; cases h
  | cons q rest ih =>
    intro n r h
    cases q with
    | mk i t =>
      cases rest with
      | nil =>
        rw [chunkRanges] at h
        rcases List.mem_singleton.mp h with rfl
        exact List.mem_singleton.mpr rfl
      | cons q' rest' =>
        cases q' with
        | mk j u =>
          rw [chunkRanges] at h
          rcases List.mem_cons.mp h with rfl | h'
          · exact List.mem_cons_self _ _
          · exact List.mem_cons_of_mem _ (ih n r h')

theorem title_line_of_mem_splitAtLevelCore :
    ∀ (fuel : Nat) (content : String) (level : Nat) (s : Section),
      s ∈ splitAtLevelCore fuel content level →
      ∃ line ∈ splitLinesChars content.data,
        matchHeadingTitle level (trimChars line) = some s.title.data := by
  intro fuel content level s h
  rw [splitAtLevelCore] at h
  simp only [List.mem_map] at h
  obtain ⟨r, hr, he⟩ := h
  have hpos := pos_of_mem_chunkRanges _ _ _ hr
  obtain ⟨line, hm, hmt⟩ := title_of_mem_scanHeadPositions _ _ _ _ _ hpos
  refine ⟨line, hm, ?_⟩
  rw [← he]
  exact hmt

theorem sections_of_mem_splitAtLevelCore :
    ∀ (fuel : Nat) (content : String) (level : Nat) (s : Section),
      s ∈ splitAtLevelCore fuel content level →
      s.sections = [] ∨
      ∃ f, fuel = f + 1 ∧ level < 6 ∧
        s.sections = dictOfList (((splitAtLevelCore f s.content (level + 1)).map
          fun s' => (makeKey s'.title, s'))) := by
  intro fuel content level s h
  cases fuel with
  | zero =>
    rw [splitAtLevelCore] at h
    simp only [List.mem_map] at h
    obtain ⟨r, _, he⟩ := h
    left
    rw [← he]
    rfl
  | succ f =>
    rw [splitAtLevelCore] at h
    simp only [List.mem_map] at h
    obtain ⟨r, _, he⟩ := h
    by_cases hl : level < 6
    · right
      refine ⟨f, rfl, hl, ?_⟩
      rw [← he]
      simp only [if_pos hl]
    · left
      rw [← he]
      simp only [if_neg hl]
      rfl

theorem deepHeadingPresent_of_mem_splitAtLevelCore :
    ∀ (fuel : Nat) (content : String) (level : Nat) (s : Section),
      s ∈ splitAtLevelCore fuel content level → DeepHeadingPresent s := by
  intro fuel
  induction fuel with
  | zero =>
    intro content level s h
    rcases sections_of_mem_splitAtLevelCore 0 content level s h with hnil | ⟨f, hf, _⟩
    · refine DeepHeadingPresent.mk s ?_ ?_
      · intro p hp; rw [hnil] at hp; cases hp
      · intro p hp; rw [hnil] at hp; cases hp
    · cases hf
  | succ f ih =>
    intro content level s h
    rcases sections_of_mem_splitAtLevelCore (f + 1) content level s h with hnil | ⟨f', hf, hl, hsec⟩
    · refine DeepHeadingPresent.mk s ?_ ?_
      · intro p hp; rw [hnil] at hp; cases hp
      · intro p hp; rw [hnil] at hp; cases hp
    · have hf' : f' = f := by omega
      rw [hf'] at hsec
      refine DeepHeadingPresent.mk s ?_ ?_
      · intro p hp
        rw [hsec] at hp
        have hp' := mem_dictOfList hp
        simp only [List.mem_map] at hp'
        obtain ⟨s', hs', hpe⟩ := hp'
        obtain ⟨line, hm, hmt⟩ := title_line_of_mem_splitAtLevelCore f _ (level + 1) s' hs'
        refine ⟨line, hm, level + 1, ?_⟩
        rw [← hpe]
        exact hmt
      · intro p hp
        rw [hsec] at hp
        have hp' := mem_dictOfList hp
        simp only [List.mem_map] at hp'
        obtain ⟨s', hs', hpe⟩ := hp'
        have := ih s.content (level + 1) s' hs'
        rw [← hpe]
        exact this

theorem deepHeadingPresent_normalize (adj : Int) :
    ∀ (s : Section), DeepHeadingPresent s → DeepHeadingPresent (normalizeSection adj s) := by
  intro s h
  induction h with
  | mk s hp hc ih =>
    refine DeepHeadingPresent.mk _ ?_ ?_
    · intro p hpm
      rw [normalizeSection_sections] at hpm
      obtain ⟨q, hq, hqe⟩ := mem_normalizeSubs hpm
      obtain ⟨line, hm, d, hmt⟩ := hp q hq
      rw [normalizeSection_content]
      refine ⟨line, hm, d, ?_⟩
      rw [hqe]
      simp only
      rw [normalizeSection_title]
      exact hmt
    · intro p hpm
      rw [normalizeSection_sections] at hpm
      obtain ⟨q, hq, hqe⟩ := mem_normalizeSubs hpm
      rw [hqe]
      exact ih q hq

theorem deepHeadingPresent_of_mem_parse (doc : String) :
    ∀ p ∈ parse doc, DeepHeadingPresent p.2 := by
  intro p hp
  unfold parse at hp
  by_cases htrim : trimChars doc.data = []
  · rw [if_pos htrim] at hp
    cases hp
  · rw [if_neg htrim] at hp
    by_cases hdep : scanDepths (splitLinesChars doc.data) false = []
    · simp only [if_pos hdep] at hp
      rcases List.mem_singleton.mp hp with rfl
      refine DeepHeadingPresent.mk _ ?_ ?_
      · intro q hq; cases hq
      · intro q hq; cases hq
    · simp only [if_neg hdep] at hp
      have hp' := mem_dictOfList hp
      simp only [List.mem_map] at hp'
      obtain ⟨s, hs, hpe⟩ := hp'
      obtain ⟨s0, hs0, hse⟩ := hs
      unfold splitAtLevel at hs0
      rw [← hpe]
      simp only
      rw [← hse]
      exact deepHeadingPresent_normalize _ _
        (deepHeadingPresent_of_mem_splitAtLevelCore _ _ _ _ hs0)

theorem deepHeadingPresent_of_inParseTree (doc : String) :
    ∀ (s : Section), InParseTree doc s → DeepHeadingPresent s := by
  intro s h
  induction h with
  | root p hp => exact deepHeadingPresent_of_mem_parse doc p hp
  | child s p _ hp ih =>
    cases ih with
    | mk _ _ hc => exact hc p hp

/-- C1 counterexample: in the parsed tree of `# A\nintro\n\n## B\nbody`, the parent
section's content is the full chunk after its own heading line — it retains the
child's heading line `## B` and the child's body, rather than holding only the body
text before the first child heading. -/
theorem parse_content_counterexample :
    ∃ p ∈ parse "# A\nintro\n\n## B\nbody",
      p.2.title = "A" ∧ (∃ q ∈ p.2.sections, q.2.title = "B") ∧
      p.2.content = "intro\n\n## B\nbody" ∧
      "## B".data ∈ splitLinesChars p.2.content.data := by
  refine ⟨("a", ⟨"A", "intro\n\n## B\nbody", 1, [("b", ⟨"B", "body", 2, []⟩)]⟩), ?_, rfl, ?_, rfl, ?_⟩
  · rw [show parse "# A\nintro\n\n## B\nbody"
        = [("a", ⟨"A", "intro\n\n## B\nbody", 1, [("b", ⟨"B", "body", 2, []⟩)]⟩)] from rfl]
    exact List.mem_singleton.mpr rfl
  · exact ⟨("b", ⟨"B", "body", 2, []⟩), List.mem_singleton.mpr rfl, rfl⟩
  · rw [show splitLinesChars ("intro\n\n## B\nbody" : String).data
        = ["intro".data, [], "## B".data, "body".data] from rfl]
    decide

/-- C1 amended: children are parsed out of — not split out of — the parent's
content: for every section in the parse tree, each child's heading line (at its raw
marker depth) still occurs among the lines of the parent's `content`, which is the
full chunk text after the parent's own heading line up to the next same-level
heading. -/
theorem section_content_retains_child_headings (doc : String) (s : Section)
    (hs : InParseTree doc s) :
    ∀ p ∈ s.sections, ∃ line ∈ splitLinesChars s.content.data, ∃ d,
      matchHeadingTitle d (trimChars line) = some p.2.title.data := by
  cases deepHeadingPresent_of_inParseTree doc s hs with
  | mk _ hp _ => exact hp

/-- Witness for `section_content_retains_child_headings` on a concrete document:
the child heading line `## B` is still a line of the parent's content. -/
theorem section_content_retains_child_headings_witness :
    ∃ line ∈ splitLinesChars ("intro\n\n## B\nbody" : String).data,
      ∃ d, matchHeadingTitle d (trimChars line) = some ("B" : String).data :=
  section_content_retains_child_headings "# A\nintro\n\n## B\nbody"
    ⟨"A", "intro\n\n## B\nbody", 1, [("b", ⟨"B", "body", 2, []⟩)]⟩
    (InParseTree.root ("a", ⟨"A", "intro\n\n## B\nbody", 1, [("b", ⟨"B", "body", 2, []⟩)]⟩)
      (by
        rw [show parse "# A\nintro\n\n## B\nbody"
            = [("a", ⟨"A", "intro\n\n## B\nbody", 1, [("b", ⟨"B", "body", 2, []⟩)]⟩)] from rfl]
        exact List.mem_singleton.mpr rfl))
    ("b", ⟨"B", "body", 2, []⟩)
    (List.mem_singleton.mpr rfl)

/-! ### Character and line-level facts -/

theorem length_dropWhile_le' {α : Type} (p : α → Bool) :
    ∀ (l : List α), (l.dropWhile p).length ≤ l.length := by
  intro l
  induction l with
  | nil => simp
  | cons c cs ih =>
    rw [List.dropWhile_cons]
    by_cases hp : p c
    · rw [if_pos hp]
      exact Nat.le_succ_of_le ih
    · rw [if_neg hp]

theorem dropWhile_eq_self_of_length {α : Type} (p : α → Bool) :
    ∀ (l : List α), (l.dropWhile p).length = l.length → l.dropWhile p = l := by
  intro l
  induction l with
  | nil => intro _; rfl
  | cons c cs ih =>
    intro h
    rw [List.dropWhile_cons] at h ⊢
    by_cases hp : p c
    · rw [if_pos hp] at h
      have := length_dropWhile_le' p cs
      simp at h
      omega
    · rw [if_neg hp]

theorem trimLeftChars_length_le (l : List Char) : (trimLeftChars l).length ≤ l.length :=
  length_dropWhile_le' _ l

theorem trimRightChars_length_le (l : List Char) : (trimRightChars l).length ≤ l.length := by
  unfold trimRightChars
  rw [List.length_reverse]
  have := length_dropWhile_le' (Char.isWhitespace) l.reverse
  rw [List.length_reverse] at this
  exact this

theorem trimLeft_of_trim_fixed {l : List Char} (h : trimChars l = l) : trimLeftChars l = l := by
  unfold trimChars at h
  have h1 : (trimRightChars (trimLeftChars l)).length ≤ (trimLeftChars l).length :=
    trimRightChars_length_le _
  have h2 : (trimLeftChars l).length ≤ l.length := trimLeftChars_length_le _
  have h3 : (trimRightChars (trimLeftChars l)).length = l.length := by rw [h]
  have h4 : (trimLeftChars l).length = l.length := by omega
  exact dropWhile_eq_self_of_length _ l h4

theorem trimRight_of_trim_fixed {l : List Char} (h : trimChars l = l) : trimRightChars l = l := by
  have hL := trimLeft_of_trim_fixed h
  unfold trimChars at h
  rw [hL] at h
  exact h

theorem trimChars_of_both {l : List Char} (h1 : trimLeftChars l = l) (h2 : trimRightChars l = l) :
    trimChars l = l := by
  unfold trimChars
  rw [h1, h2]

theorem dropWhile_head_false {α : Type} {p : α → Bool} {c : α} {cs : List α}
    (h : (c :: cs).dropWhile p = c :: cs) : p c = false := by
  by_cases hp : p c
  · rw [List.dropWhile_cons, if_pos hp] at h
    have := length_dropWhile_le' p cs
    have hlen : (cs.dropWhile p).length = (c :: cs).length := by rw [h]
    simp at hlen
    omega
  · simpa using hp

theorem trimChars_eq_nil_iff {l : List Char} :
    trimChars l = [] ↔ ∀ c ∈ l, c.isWhitespace = true := by
  constructor
  · intro h c hc
    unfold trimChars trimRightChars trimLeftChars at h
    have h' : (l.dropWhile Char.isWhitespace).reverse.dropWhile Char.isWhitespace = [] := by
      by_contra hne
      exact hne (by
        have := congrArg List.reverse h
        simpa using this)
    rw [List.dropWhile_eq_nil_iff] at h'
    by_cases hmem : c ∈ l.dropWhile Char.isWhitespace
    · exact h' c (List.mem_reverse.mpr hmem)
    · have hsplit := List.takeWhile_append_dropWhile (p := Char.isWhitespace) (l := l)
      rw [← hsplit] at hc
      rcases List.mem_append.mp hc with h'' | h''
      · exact List.mem_takeWhile_imp h''
      · exact absurd h'' hmem
  · intro h
    unfold trimChars trimRightChars trimLeftChars
    have h1 : l.dropWhile Char.isWhitespace = [] :=
      List.dropWhile_eq_nil_iff.mpr h
    rw [h1]
    rfl

theorem trimLeftChars_cons_nonws {c : Char} {l : List Char} (h : c.isWhitespace = false) :
    trimLeftChars (c :: l) = c :: l := by
  unfold trimLeftChars
  rw [List.dropWhile_cons, h]
  rfl

theorem trimRightChars_cons_of_fixed {c : Char} {l : List Char}
    (hne : l ≠ []) (hfix : trimRightChars l = l) : trimRightChars (c :: l) = c :: l := by
  have hdw : l.reverse.dropWhile Char.isWhitespace = l.reverse := by
    have := congrArg List.reverse hfix
    unfold trimRightChars at this
    simpa using this
  cases hrev : l.reverse with
  | nil => exact absurd (by simpa using hrev) hne
  | cons x xs =>
    rw [hrev] at hdw
    have hx : x.isWhitespace = false := dropWhile_head_false hdw
    unfold trimRightChars
    rw [List.reverse_cons, hrev, List.cons_append]
    rw [List.dropWhile_cons, hx]
    simp only [Bool.false_eq_true, if_false]
    rw [← List.cons_append, ← hrev]
    simp

theorem trimChars_hash_space {t : List Char} (h1 : trimChars t = t) (h2 : t ≠ []) :
    trimChars ('#' :: ' ' :: t) = '#' :: ' ' :: t := by
  apply trimChars_of_both
  · exact trimLeftChars_cons_nonws (by decide)
  · apply trimRightChars_cons_of_fixed (by simp)
    apply trimRightChars_cons_of_fixed h2
    exact trimRight_of_trim_fixed h1

theorem takeWhile_hash_replicate (k : Nat) :
    (List.replicate k '#').takeWhile (· = '#') = List.replicate k '#' := by
  induction k with
  | zero => rfl
  | succ m ih =>
    rw [List.replicate_succ, List.takeWhile_cons]
    rw [if_pos (by decide)]
    rw [ih]

theorem takeWhile_hash_cons_ws (k : Nat) {c : Char} (rest : List Char)
    (hc : c.isWhitespace = true) :
    (List.replicate k '#' ++ c :: rest).takeWhile (· = '#') = List.replicate k '#' := by
  induction k with
  | zero =>
    rw [List.replicate_zero, List.nil_append, List.takeWhile_cons]
    rw [if_neg (by
      simp only [decide_eq_true_eq]
      intro he
      rw [he] at hc
      exact absurd hc (by decide))]
  | succ m ih =>
    rw [List.replicate_succ, List.cons_append, List.takeWhile_cons]
    rw [if_pos (by decide)]
    rw [ih]

theorem headingRunDepth_hash_space (t : List Char) :
    headingRunDepth ('#' :: ' ' :: t) = some 1 := by
  have htw : ('#' :: ' ' :: t).takeWhile (· = '#') = ['#'] := by
    have := takeWhile_hash_cons_ws 1 t (c := ' ') (by decide)
    simpa using this
  have hcond : 1 ≤ (1 : Nat) ∧ (1 : Nat) ≤ 6 ∧ ('#' :: ' ' :: t).drop 1 ≠ [] ∧
      (('#' :: ' ' :: t).drop 1).headI.isWhitespace = true := by
    refine ⟨by decide, by decide, by simp, ?_⟩
    rw [show ('#' :: ' ' :: t).drop 1 = ' ' :: t from rfl]
    rw [show (' ' :: t).headI = ' ' from rfl]
    decide
  simp only [headingRunDepth, htw, List.length_cons, List.length_nil]
  rw [if_pos hcond]

theorem matchHeadingTitle_hash_space {t : List Char} (h1 : trimChars t = t) (h2 : t ≠ []) :
    matchHeadingTitle 1 ('#' :: ' ' :: t) = some t := by
  have hdrop : ('#' :: ' ' :: t).drop 1 = ' ' :: t := rfl
  have hdw : (' ' :: t).dropWhile Char.isWhitespace = t := by
    rw [List.dropWhile_cons]
    rw [if_pos (by decide)]
    exact trimLeft_of_trim_fixed h1
  have hcond : ('#' :: ' ' :: t).take 1 = List.replicate 1 '#' ∧
      ('#' :: ' ' :: t).drop 1 ≠ [] ∧
      (('#' :: ' ' :: t).drop 1).headI.isWhitespace = true ∧
      (('#' :: ' ' :: t).drop 1).dropWhile Char.isWhitespace ≠ [] := by
    refine ⟨rfl, by simp, ?_, ?_⟩
    · rw [hdrop]
      rw [show (' ' :: t).headI = ' ' from rfl]
      decide
    · rw [hdrop, hdw]
      exact h2
  simp only [matchHeadingTitle]
  rw [if_pos hcond]
  rw [hdrop, hdw]

theorem matchHeadingTitle_none_of_runDepth_none {s : List Char} {k : Nat}
    (hk1 : 1 ≤ k) (hk6 : k ≤ 6) (h : headingRunDepth s = none) :
    matchHeadingTitle k s = none := by
  simp only [matchHeadingTitle]
  by_cases hcond : s.take k = List.replicate k '#' ∧ s.drop k ≠ [] ∧
      (s.drop k).headI.isWhitespace = true ∧ (s.drop k).dropWhile Char.isWhitespace ≠ []
  · exfalso
    obtain ⟨htake, hdrop, hws, _⟩ := hcond
    cases hd : s.drop k with
    | nil => exact hdrop hd
    | cons c cs =>
      have hcw : c.isWhitespace = true := by
        rw [hd] at hws
        simpa [List.headI] using hws
      have hs : s = List.replicate k '#' ++ c :: cs := by
        have := List.take_append_drop k s
        rw [htake, hd] at this
        exact this.symm
      have htw : s.takeWhile (· = '#') = List.replicate k '#' := by
        rw [hs]
        exact takeWhile_hash_cons_ws k cs hcw
      simp only [headingRunDepth, htw, List.length_replicate] at h
      rw [if_pos] at h
      · cases h
      · refine ⟨hk1, hk6, ?_, ?_⟩
        · rw [hs, List.drop_left' (by rw [List.length_replicate])]
          simp
        · rw [hs, List.drop_left' (by rw [List.length_replicate])]
          simpa [List.headI] using hcw
  · rw [if_neg hcond]

theorem hash_take_ne_fence (cs : List Char) : ('#' :: cs).take 3 ≠ "```".data := by
  intro h
  rw [show ("```".data) = ['`', '`', '`'] from rfl] at h
  rw [List.take_succ_cons] at h
  injection h with h1 _
  exact absurd h1 (by decide)

theorem joinLinesChars_cons {l : List Char} {ls : List (List Char)} (h : ls ≠ []) :
    joinLinesChars (l :: ls) = l ++ '\n' :: joinLinesChars ls := by
  cases ls with
  | nil => exact absurd rfl h
  | cons l' ls' => rfl

theorem splitLinesChars_no_nl {l : List Char} (h : '\n' ∉ l) (hne : l ≠ []) :
    splitLinesChars l = [l] := by
  induction l with
  | nil => exact absurd rfl hne
  | cons c cs ih =>
    have hc : c ≠ '\n' := fun he => h (he ▸ List.mem_cons_self c cs)
    rw [splitLinesChars, if_neg hc]
    by_cases hcs : cs = []
    · subst hcs
      rfl
    · rw [ih (fun hm => h (List.mem_cons_of_mem _ hm)) hcs]
      rfl

theorem splitLinesChars_append_nl {l rest : List Char} (h : '\n' ∉ l) :
    splitLinesChars (l ++ '\n' :: rest) = l :: splitLinesChars rest := by
  induction l with
  | nil =>
    rw [List.nil_append, splitLinesChars, if_pos rfl]
  | cons c cs ih =>
    have hc : c ≠ '\n' := fun he => h (he ▸ List.mem_cons_self c cs)
    rw [List.cons_append, splitLinesChars, if_neg hc]
    rw [ih (fun hm => h (List.mem_cons_of_mem _ hm))]
    rfl

theorem splitLinesChars_join :
    ∀ {L : List (List Char)}, (∀ l ∈ L, '\n' ∉ l) → L.getLast? ≠ some [] →
      splitLinesChars (joinLinesChars L) = L := by
  intro L
  induction L with
  | nil => intro _ _; rfl
  | cons l ls ih =>
    intro hnl hlast
    cases ls with
    | nil =>
      have hl : l ≠ [] := by
        intro he
        exact hlast (by rw [he]; rfl)
      exact splitLinesChars_no_nl (hnl l (List.mem_cons_self _ _)) hl
    | cons l' ls' =>
      rw [joinLinesChars_cons (by simp)]
      rw [splitLinesChars_append_nl (hnl l (List.mem_cons_self _ _))]
      rw [ih (fun x hx => hnl x (List.mem_cons_of_mem _ hx))
          (by rwa [List.getLast?_cons_cons] at hlast)]

theorem stripLeadingLines_length_le :
    ∀ (ls : List (List Char)), (stripLeadingLines ls).length ≤ ls.length := by
  intro ls
  induction ls with
  | nil => simp [stripLeadingLines]
  | cons l ls' ih =>
    rw [stripLeadingLines]
    by_cases hb : trimChars l = []
    · rw [if_pos hb]
      exact Nat.le_succ_of_le ih
    · rw [if_neg hb]
      simp

theorem stripTrailingRev_length_le :
    ∀ (ls : List (List Char)), (stripTrailingRev ls).length ≤ ls.length := by
  intro ls
  induction ls with
  | nil => simp [stripTrailingRev]
  | cons l ls' ih =>
    rw [stripTrailingRev]
    by_cases hb : trimChars l = []
    · rw [if_pos hb]
      exact Nat.le_succ_of_le ih
    · rw [if_neg hb]
      simp

theorem stripLeadingLines_cons_fixed {y : List Char} {ys : List (List Char)}
    (h : stripLeadingLines (y :: ys) = y :: ys) :
    trimChars y ≠ [] ∧ trimLeftChars y = y := by
  by_cases hb : trimChars y = []
  · rw [stripLeadingLines, if_pos hb] at h
    have h1 := stripLeadingLines_length_le ys
    have h2 : (stripLeadingLines ys).length = ys.length + 1 := by rw [h]; rfl
    omega
  · rw [stripLeadingLines, if_neg hb] at h
    exact ⟨hb, (List.cons.injEq _ _ _ _ ▸ h).1⟩

theorem stripTrailingRev_cons_fixed {y : List Char} {ys : List (List Char)}
    (h : stripTrailingRev (y :: ys) = y :: ys) :
    trimChars y ≠ [] ∧ trimRightChars y = y := by
  by_cases hb : trimChars y = []
  · rw [stripTrailingRev, if_pos hb] at h
    have h1 := stripTrailingRev_length_le ys
    have h2 : (stripTrailingRev ys).length = ys.length + 1 := by rw [h]; rfl
    omega
  · rw [stripTrailingRev, if_neg hb] at h
    exact ⟨hb, (List.cons.injEq _ _ _ _ ▸ h).1⟩

theorem stripLeadingLines_cons_of_nonblank {y : List Char} {ys : List (List Char)}
    (h1 : trimChars y ≠ []) (h2 : trimLeftChars y = y) :
    stripLeadingLines (y :: ys) = y :: ys := by
  rw [stripLeadingLines, if_neg h1, h2]

theorem stripTrailingRev_cons_of_nonblank {y : List Char} {ys : List (List Char)}
    (h1 : trimChars y ≠ []) (h2 : trimRightChars y = y) :
    stripTrailingRev (y :: ys) = y :: ys := by
  rw [stripTrailingRev, if_neg h1, h2]

/-- Stripping a chunk whose first line is a clean nonblank heading line and whose
remaining lines are already strip-clean changes nothing. -/
theorem stripLines_chunk {hl : List Char} {b : List (List Char)}
    (hhl : trimChars hl = hl) (hne : trimChars hl ≠ [])
    (hlead : stripLeadingLines b = b) (htrail : stripTrailingRev b.reverse = b.reverse) :
    stripLines (hl :: b) = hl :: b := by
  unfold stripLines
  rw [stripLeadingLines_cons_of_nonblank hne (trimLeft_of_trim_fixed hhl)]
  cases hrev : b.reverse with
  | nil =>
    have hb : b = [] := by simpa using congrArg List.reverse hrev
    subst hb
    rw [show (hl :: ([] : List (List Char))).reverse = [hl] from rfl]
    rw [stripTrailingRev_cons_of_nonblank hne (trimRight_of_trim_fixed hhl)]
    rfl
  | cons x xs =>
    rw [hrev] at htrail
    obtain ⟨hx1, hx2⟩ := stripTrailingRev_cons_fixed htrail
    rw [List.reverse_cons, hrev, List.cons_append]
    rw [stripTrailingRev_cons_of_nonblank hx1 hx2]
    rw [← List.cons_append, ← hrev]
    simp

/-! ### Facts about the heading scans -/

theorem scanDepths_fence {l : List Char} {ls : List (List Char)} {b : Bool}
    (hf : (trimChars l).take 3 = "```".data) :
    scanDepths (l :: ls) b = scanDepths ls (!b) := by
  rw [scanDepths, if_pos hf]

theorem scanDepths_incode {l : List Char} {ls : List (List Char)}
    (hf : (trimChars l).take 3 ≠ "```".data) :
    scanDepths (l :: ls) true = scanDepths ls true := by
  rw [scanDepths, if_neg hf]
  rfl

theorem scanDepths_heading {l : List Char} {ls : List (List Char)} {n : Nat}
    (hf : (trimChars l).take 3 ≠ "```".data)
    (hh : headingRunDepth (trimChars l) = some n) :
    scanDepths (l :: ls) false = n :: scanDepths ls false := by
  rw [scanDepths, if_neg hf]
  simp only [Bool.false_eq_true, if_false]
  rw [hh]

theorem scanDepths_skip {l : List Char} {ls : List (List Char)}
    (hf : (trimChars l).take 3 ≠ "```".data)
    (hh : headingRunDepth (trimChars l) = none) :
    scanDepths (l :: ls) false = scanDepths ls false := by
  rw [scanDepths, if_neg hf]
  simp only [Bool.false_eq_true, if_false]
  rw [hh]

theorem scanDepths_append_skips {xs ys : List (List Char)}
    (h : ∀ l ∈ xs, (trimChars l).take 3 ≠ "```".data ∧ headingRunDepth (trimChars l) = none) :
    scanDepths (xs ++ ys) false = scanDepths ys false := by
  induction xs with
  | nil => rfl
  | cons x xs' ih =>
    rw [List.cons_append]
    rw [scanDepths_skip (h x (List.mem_cons_self _ _)).1 (h x (List.mem_cons_self _ _)).2]
    exact ih (fun l hl => h l (List.mem_cons_of_mem _ hl))

theorem scanDepths_append_incode {xs ys : List (List Char)}
    (h : ∀ l ∈ xs, (trimChars l).take 3 ≠ "```".data) :
    scanDepths (xs ++ ys) true = scanDepths ys true := by
  induction xs with
  | nil => rfl
  | cons x xs' ih =>
    rw [List.cons_append]
    rw [scanDepths_incode (h x (List.mem_cons_self _ _))]
    exact ih (fun l hl => h l (List.mem_cons_of_mem _ hl))

theorem scanHeadPositions_fence {level : Nat} {l : List Char} {ls : List (List Char)}
    {i : Nat} {b : Bool} (hf : (trimChars l).take 3 = "```".data) :
    scanHeadPositions level (l :: ls) i b = scanHeadPositions level ls (i + 1) (!b) := by
  rw [scanHeadPositions, if_pos hf]

theorem scanHeadPositions_incode {level : Nat} {l : List Char} {ls : List (List Char)}
    {i : Nat} (hf : (trimChars l).take 3 ≠ "```".data) :
    scanHeadPositions level (l :: ls) i true = scanHeadPositions level ls (i + 1) true := by
  rw [scanHeadPositions, if_neg hf]
  rfl

theorem scanHeadPositions_heading {level : Nat} {l : List Char} {ls : List (List Char)}
    {i : Nat} {t : List Char} (hf : (trimChars l).take 3 ≠ "```".data)
    (hh : matchHeadingTitle level (trimChars l) = some t) :
    scanHeadPositions level (l :: ls) i false
      = (i, t) :: scanHeadPositions level ls (i + 1) false := by
  rw [scanHeadPositions, if_neg hf]
  simp only [Bool.false_eq_true, if_false]
  rw [hh]

theorem scanHeadPositions_skip {level : Nat} {l : List Char} {ls : List (List Char)}
    {i : Nat} (hf : (trimChars l).take 3 ≠ "```".data)
    (hh : matchHeadingTitle level (trimChars l) = none) :
    scanHeadPositions level (l :: ls) i false = scanHeadPositions level ls (i + 1) false := by
  rw [scanHeadPositions, if_neg hf]
  simp only [Bool.false_eq_true, if_false]
  rw [hh]

theorem scanHeadPositions_append_skips {level : Nat} {xs ys : List (List Char)} :
    ∀ {i : Nat},
      (∀ l ∈ xs, (trimChars l).take 3 ≠ "```".data ∧
        matchHeadingTitle level (trimChars l) = none) →
      scanHeadPositions level (xs ++ ys) i false
        = scanHeadPositions level ys (i + xs.length) false := by
  induction xs with
  | nil => intro i _; rfl
  | cons x xs' ih =>
    intro i h
    rw [List.cons_append]
    rw [scanHeadPositions_skip (h x (List.mem_cons_self _ _)).1 (h x (List.mem_cons_self _ _)).2]
    rw [ih (fun l hl => h l (List.mem_cons_of_mem _ hl))]
    congr 1
    simp [List.length_cons]
    omega

theorem scanHeadPositions_append_incode {level : Nat} {xs ys : List (List Char)} :
    ∀ {i : Nat}, (∀ l ∈ xs, (trimChars l).take 3 ≠ "```".data) →
      scanHeadPositions level (xs ++ ys) i true
        = scanHeadPositions level ys (i + xs.length) true := by
  induction xs with
  | nil => intro i _; rfl
  | cons x xs' ih =>
    intro i h
    rw [List.cons_append]
    rw [scanHeadPositions_incode (h x (List.mem_cons_self _ _))]
    rw [ih (fun l hl => h l (List.mem_cons_of_mem _ hl))]
    congr 1
    simp [List.length_cons]
    omega

theorem scanHeadPositions_nil_of_skips {level : Nat} {ls : List (List Char)} {i : Nat}
    (h : ∀ l ∈ ls, (trimChars l).take 3 ≠ "```".data ∧
      matchHeadingTitle level (trimChars l) = none) :
    scanHeadPositions level ls i false = [] := by
  have := @scanHeadPositions_append_skips level ls [] i h
  rw [List.append_nil] at this
  rw [this]
  rfl

/-! ### Documents built from heading-plus-body groups -/

/-- The hypotheses on one group of a flat document: a clean nonempty title and body
lines that contain no newline, are not structural headings, are not fence lines, and
are already strip-clean, with a nonempty body. -/
def GroupWF (g : List Char × List (List Char)) : Prop :=
  (trimChars g.1 = g.1 ∧ g.1 ≠ [] ∧ '\n' ∉ g.1) ∧
  (∀ l ∈ g.2, headingRunDepth (trimChars l) = none ∧
    (trimChars l).take 3 ≠ "```".data ∧ '\n' ∉ l) ∧
  (stripLeadingLines g.2 = g.2 ∧ stripTrailingRev g.2.reverse = g.2.reverse) ∧
  g.2 ≠ []

theorem mem_joinLinesChars {c : Char} :
    ∀ {L : List (List Char)} {l : List Char}, c ∈ l → l ∈ L → c ∈ joinLinesChars L := by
  intro L
  induction L with
  | nil => intro l _ hm; cases hm
  | cons x xs ih =>
    intro l hc hm
    cases xs with
    | nil =>
      rcases List.mem_singleton.mp hm with rfl
      exact hc
    | cons x' xs' =>
      rw [joinLinesChars_cons (by simp)]
      rcases List.mem_cons.mp hm with rfl | hm'
      · exact List.mem_append.mpr (Or.inl hc)
      · exact List.mem_append.mpr (Or.inr (List.mem_cons_of_mem _ (ih hc hm')))

theorem getLast?_cons_of_ne_nil {α : Type} (a : α) {l : List α} (h : l ≠ []) :
    (a :: l).getLast? = l.getLast? := by
  cases l with
  | nil => exact absurd rfl h
  | cons b l' => exact List.getLast?_cons_cons

theorem getLast?_append_of_ne_nil {α : Type} {ys : List α} (xs : List α) (h : ys ≠ []) :
    (xs ++ ys).getLast? = ys.getLast? := by
  induction xs with
  | nil => rfl
  | cons x xs' ih =>
    rw [List.cons_append]
    rw [getLast?_cons_of_ne_nil x (by
      intro he
      rcases List.append_eq_nil.mp he with ⟨_, h2⟩
      exact h h2)]
    exact ih

theorem body_getLast_ne_nil {b : List (List Char)}
    (htrail : stripTrailingRev b.reverse = b.reverse) (hne : b ≠ []) :
    b.getLast? ≠ some [] := by
  cases hrev : b.reverse with
  | nil => exact absurd (by simpa using congrArg List.reverse hrev) hne
  | cons x xs =>
    rw [hrev] at htrail
    obtain ⟨hx1, _⟩ := stripTrailingRev_cons_fixed htrail
    rw [List.getLast?_eq_head?_reverse, hrev]
    intro he
    simp only [List.head?_cons, Option.some_inj] at he
    rw [he] at hx1
    exact hx1 rfl

theorem docLines_ne_nil {gs : List (List Char × List (List Char))} (h : gs ≠ []) :
    docLines gs ≠ [] := by
  cases gs with
  | nil => exact absurd rfl h
  | cons g rest =>
    rw [docLines, List.flatMap_cons]
    simp

theorem docLines_getLast_ne_nil :
    ∀ {gs : List (List Char × List (List Char))}, gs ≠ [] → (∀ g ∈ gs, GroupWF g) →
      (docLines gs).getLast? ≠ some [] := by
  intro gs
  induction gs with
  | nil => intro h _; exact absurd rfl h
  | cons g rest ih =>
    intro _ hwf
    have hdoc : docLines (g :: rest) = (('#' :: ' ' :: g.1) :: g.2) ++ docLines rest := by
      rw [docLines, docLines, List.flatMap_cons]
    rw [hdoc]
    cases hr : rest with
    | nil =>
      rw [show docLines ([] : List (List Char × List (List Char))) = [] from rfl,
        List.append_nil]
      obtain ⟨_, _, ⟨_, htrail⟩, hbne⟩ := hwf g (List.mem_cons_self _ _)
      rw [getLast?_cons_of_ne_nil _ hbne]
      exact body_getLast_ne_nil htrail hbne
    | cons g' rest' =>
      rw [← hr]
      rw [getLast?_append_of_ne_nil _ (docLines_ne_nil (by rw [hr]; simp))]
      exact ih (by rw [hr]; simp) (fun x hx => hwf x (List.mem_cons_of_mem _ hx))

theorem docLines_no_nl {gs : List (List Char × List (List Char))}
    (hwf : ∀ g ∈ gs, GroupWF g) : ∀ l ∈ docLines gs, '\n' ∉ l := by
  intro l hl
  rw [docLines] at hl
  rw [List.mem_flatMap] at hl
  obtain ⟨g, hg, hm⟩ := hl
  obtain ⟨⟨_, _, htnl⟩, hb, _, _⟩ := hwf g hg
  rcases List.mem_cons.mp hm with rfl | hm'
  · intro hc
    rcases List.mem_cons.mp hc with he | hc'
    · cases he
    · rcases List.mem_cons.mp hc' with he | hc''
      · cases he
      · exact htnl hc''
  · exact (hb l hm').2.2

theorem pyMinList_replicate_one (n : Nat) :
    pyMinList (List.replicate (n + 1) 1) = 1 := by
  rw [List.replicate_succ, pyMinList]
  induction n with
  | zero => rfl
  | succ m ih =>
    rw [List.replicate_succ, List.foldl_cons]
    simpa using ih

mutual
theorem normalizeSection_zero (s : Section) : normalizeSection 0 s = s := by
  cases s with
  | mk t c l subs =>
    rw [normalizeSection]
    rw [normalizeSubs_zero subs]
    simp
theorem normalizeSubs_zero (l : List (String × Section)) : normalizeSubs 0 l = l := by
  cases l with
  | nil => rfl
  | cons q rest =>
    cases q with
    | mk k s =>
      rw [normalizeSubs]
      rw [normalizeSection_zero s, normalizeSubs_zero rest]
end

/-- The position scan of a grouped document finds exactly the group-start lines. -/
theorem scanHeadPositions_docLines :
    ∀ {gs : List (List Char × List (List Char))}, (∀ g ∈ gs, GroupWF g) →
      ∀ (i : Nat), scanHeadPositions 1 (docLines gs) i false = groupOffsets i gs := by
  intro gs
  induction gs with
  | nil => intro _ i; rfl
  | cons g rest ih =>
    intro hwf i
    obtain ⟨⟨ht1, ht2, _⟩, hb, _, _⟩ := hwf g (List.mem_cons_self _ _)
    have htrim : trimChars ('#' :: ' ' :: g.1) = '#' :: ' ' :: g.1 :=
      trimChars_hash_space ht1 ht2
    have hdoc : docLines (g :: rest) = (('#' :: ' ' :: g.1) :: g.2) ++ docLines rest := by
      rw [docLines, docLines, List.flatMap_cons]
    rw [hdoc, List.cons_append]
    rw [scanHeadPositions_heading
      (by rw [htrim]; exact hash_take_ne_fence _)
      (by rw [htrim]; exact matchHeadingTitle_hash_space ht1 ht2)]
    rw [scanHeadPositions_append_skips
      (fun l hl => ⟨(hb l hl).2.1,
        matchHeadingTitle_none_of_runDepth_none (by decide) (by decide) (hb l hl).1⟩)]
    rw [groupOffsets]
    rw [ih (fun x hx => hwf x (List.mem_cons_of_mem _ hx))]

/-- The depth scan of a grouped document finds one depth-1 heading per group. -/
theorem scanDepths_docLines :
    ∀ {gs : List (List Char × List (List Char))}, (∀ g ∈ gs, GroupWF g) →
      scanDepths (docLines gs) false = List.replicate gs.length 1 := by
  intro gs
  induction gs with
  | nil => intro _; rfl
  | cons g rest ih =>
    intro hwf
    obtain ⟨⟨ht1, ht2, _⟩, hb, _, _⟩ := hwf g (List.mem_cons_self _ _)
    have htrim : trimChars ('#' :: ' ' :: g.1) = '#' :: ' ' :: g.1 :=
      trimChars_hash_space ht1 ht2
    have hdoc : docLines (g :: rest) = (('#' :: ' ' :: g.1) :: g.2) ++ docLines rest := by
      rw [docLines, docLines, List.flatMap_cons]
    rw [hdoc, List.cons_append]
    rw [scanDepths_heading
      (by rw [htrim]; exact hash_take_ne_fence _)
      (by rw [htrim]; exact headingRunDepth_hash_space _)]
    rw [scanDepths_append_skips (fun l hl => ⟨(hb l hl).2.1, (hb l hl).1⟩)]
    rw [ih (fun x hx => hwf x (List.mem_cons_of_mem _ hx))]
    rfl

/-- The chunks cut at the group-start positions are exactly the groups. -/
theorem chunkRanges_groups :
    ∀ (gs : List (List Char × List (List Char))) (pre : List (List Char)),
      (chunkRanges (groupOffsets pre.length gs) (pre.length + (docLines gs).length)).map
        (fun r => (((pre ++ docLines gs).drop r.1).take (r.2.1 - r.1), r.2.2))
      = gs.map (fun g => (('#' :: ' ' :: g.1) :: g.2, g.1)) := by
  intro gs
  induction gs with
  | nil => intro pre; rfl
  | cons g rest ih =>
    intro pre
    have hdoc : docLines (g :: rest) = (('#' :: ' ' :: g.1) :: g.2) ++ docLines rest := by
      rw [docLines, docLines, List.flatMap_cons]
    cases hr : rest with
    | nil =>
      rw [groupOffsets, groupOffsets, chunkRanges, List.map_cons, List.map_nil, List.map_cons,
        List.map_nil]
      congr 2
      have hd0 : docLines [g] = ('#' :: ' ' :: g.1) :: g.2 := by
        rw [docLines, List.flatMap_cons]
        simp [docLines]
      rw [hd0]
      rw [List.drop_left]
      rw [show pre.length + (('#' :: ' ' :: g.1) :: g.2).length - pre.length
          = (('#' :: ' ' :: g.1) :: g.2).length from by omega]
      rw [List.take_length]
    | cons g' rest' =>
      rw [← hr]
      have hoff : groupOffsets pre.length (g :: rest)
          = (pre.length, g.1) :: groupOffsets (pre.length + 1 + g.2.length) rest := by
        rw [groupOffsets]
      have hoff2 : groupOffsets (pre.length + 1 + g.2.length) rest
          = (pre.length + 1 + g.2.length, g'.1)
            :: groupOffsets (pre.length + 1 + g.2.length + 1 + g'.2.length) rest' := by
        rw [hr, groupOffsets]
      rw [hoff, hoff2, chunkRanges, ← hoff2, List.map_cons, List.map_cons]
      congr 1
      · congr 1
        rw [hdoc]
        rw [List.drop_left]
        rw [List.take_left' (by simp only [List.length_cons]; omega)]
      · have ihtail := ih (pre ++ (('#' :: ' ' :: g.1) :: g.2))
        have e2 : (pre ++ (('#' :: ' ' :: g.1) :: g.2)) ++ docLines rest
            = pre ++ docLines (g :: rest) := by
          rw [hdoc, List.append_assoc]
        rw [e2] at ihtail
        have e3 : (pre ++ (('#' :: ' ' :: g.1) :: g.2)).length + (docLines rest).length
            = pre.length + (docLines (g :: rest)).length := by
          rw [hdoc]
          simp only [List.length_append, List.length_cons]
          omega
        rw [e3] at ihtail
        have e1 : (pre ++ (('#' :: ' ' :: g.1) :: g.2)).length
            = pre.length + 1 + g.2.length := by
          simp only [List.length_append, List.length_cons]
          omega
        rw [e1] at ihtail
        exact ihtail

/-- Splitting finds nothing when the position scan is empty. -/
theorem splitAtLevelCore_eq_nil {fuel : Nat} {s : String} {level : Nat}
    (h : scanHeadPositions level (splitLinesChars s.data) 0 false = []) :
    splitAtLevelCore fuel s level = [] := by
  rw [splitAtLevelCore]
  rw [h]
  rfl

/-- `_split_at_level` on the unfolded right-hand side. -/
theorem splitAtLevelCore_eq (fuel : Nat) (content : String) (level : Nat) :
    splitAtLevelCore fuel content level =
      (chunkRanges (scanHeadPositions level (splitLinesChars content.data) 0 false)
        (splitLinesChars content.data).length).map fun r =>
        { title := ⟨r.2.2⟩,
          content := ⟨joinLinesChars ((stripLines
            (((splitLinesChars content.data).drop r.1).take (r.2.1 - r.1))).drop 1)⟩,
          level := (level : Int),
          sections := dictOfList (((match fuel with
            | 0 => []
            | f + 1 =>
              if level < 6 then
                splitAtLevelCore f
                  ⟨joinLinesChars ((stripLines
                    (((splitLinesChars content.data).drop r.1).take (r.2.1 - r.1))).drop 1)⟩
                  (level + 1)
              else [] : List Section)).map fun s => (makeKey s.title, s)) } := by
  rw [splitAtLevelCore]

/-- Splitting a grouped document at level 1 yields one child-free section per group,
whose content is the body joined back together. -/
theorem splitAtLevelCore_docLines {gs : List (List Char × List (List Char))}
    (hwf : ∀ g ∈ gs, GroupWF g) (hne : gs ≠ []) :
    splitAtLevelCore 5 ⟨joinLinesChars (docLines gs)⟩ 1
      = gs.map (fun g => ⟨⟨g.1⟩, ⟨joinLinesChars g.2⟩, (1 : Int), []⟩) := by
  have hsplit : splitLinesChars (joinLinesChars (docLines gs)) = docLines gs :=
    splitLinesChars_join (docLines_no_nl hwf) (docLines_getLast_ne_nil hne hwf)
  have hpos := scanHeadPositions_docLines hwf 0
  rw [splitAtLevelCore_eq]
  rw [show (⟨joinLinesChars (docLines gs)⟩ : String).data
      = joinLinesChars (docLines gs) from rfl]
  rw [hsplit, hpos]
  have hchunks := chunkRanges_groups gs []
  simp only [List.length_nil, List.nil_append, Nat.zero_add] at hchunks
  calc
    (chunkRanges (groupOffsets 0 gs) (docLines gs).length).map (fun r =>
        ({ title := ⟨r.2.2⟩,
           content := ⟨joinLinesChars ((stripLines
             (((docLines gs).drop r.1).take (r.2.1 - r.1))).drop 1)⟩,
           level := (1 : Int),
           sections := dictOfList (((match (5 : Nat) with
             | 0 => []
             | f + 1 =>
               if 1 < 6 then
                 splitAtLevelCore f
                   ⟨joinLinesChars ((stripLines
                     (((docLines gs).drop r.1).take (r.2.1 - r.1))).drop 1)⟩ 2
               else [] : List Section)).map fun s => (makeKey s.title, s)) } : Section))
      = ((chunkRanges (groupOffsets 0 gs) (docLines gs).length).map
          (fun r => (((docLines gs).drop r.1).take (r.2.1 - r.1), r.2.2))).map
          (fun pr =>
            ({ title := ⟨pr.2⟩,
               content := ⟨joinLinesChars ((stripLines pr.1).drop 1)⟩,
               level := (1 : Int),
               sections := dictOfList (((match (5 : Nat) with
                 | 0 => []
                 | f + 1 =>
                   if 1 < 6 then
                     splitAtLevelCore f
                       ⟨joinLinesChars ((stripLines pr.1).drop 1)⟩ 2
                   else [] : List Section)).map fun s => (makeKey s.title, s)) } : Section)) := by
        rw [List.map_map]
        rfl
    _ = (gs.map (fun g => (('#' :: ' ' :: g.1) :: g.2, g.1))).map
          (fun pr =>
            ({ title := ⟨pr.2⟩,
               content := ⟨joinLinesChars ((stripLines pr.1).drop 1)⟩,
               level := (1 : Int),
               sections := dictOfList (((match (5 : Nat) with
                 | 0 => []
                 | f + 1 =>
                   if 1 < 6 then
                     splitAtLevelCore f
                       ⟨joinLinesChars ((stripLines pr.1).drop 1)⟩ 2
                   else [] : List Section)).map fun s => (makeKey s.title, s)) } : Section)) := by
        rw [hchunks]
    _ = gs.map (fun g => ⟨⟨g.1⟩, ⟨joinLinesChars g.2⟩, (1 : Int), []⟩) := by
        rw [List.map_map]
        apply List.map_congr_left
        intro g hg
        obtain ⟨⟨ht1, ht2, _⟩, hb, ⟨hlead, htrail⟩, hbne⟩ := hwf g hg
        have htrim : trimChars ('#' :: ' ' :: g.1) = '#' :: ' ' :: g.1 :=
          trimChars_hash_space ht1 ht2
        have hstrip : stripLines (('#' :: ' ' :: g.1) :: g.2) = ('#' :: ' ' :: g.1) :: g.2 :=
          stripLines_chunk htrim (by rw [htrim]; simp) hlead htrail
        have hbrt : splitLinesChars (joinLinesChars g.2) = g.2 :=
          splitLinesChars_join (fun l hl => (hb l hl).2.2) (body_getLast_ne_nil htrail hbne)
        have hsub : splitAtLevelCore 4 (⟨joinLinesChars g.2⟩ : String) 2 = [] := by
          apply splitAtLevelCore_eq_nil
          rw [show ((⟨joinLinesChars g.2⟩ : String)).data = joinLinesChars g.2 from rfl]
          rw [hbrt]
          exact scanHeadPositions_nil_of_skips (fun l hl =>
            ⟨(hb l hl).2.1,
             matchHeadingTitle_none_of_runDepth_none (by decide) (by decide) (hb l hl).1⟩)
        simp only [Function.comp]
        rw [hstrip]
        rw [show ((('#' :: ' ' :: g.1) :: g.2).drop 1) = g.2 from rfl]
        rw [if_pos (by norm_num), hsub]
        rfl

/-- `parse` on the unfolded right-hand side. -/
theorem parse_eq (content : String) :
    parse content =
      if trimChars content.data = [] then []
      else if scanDepths (splitLinesChars content.data) false = [] then
        [("root", { title := "root", content := content, level := 1, sections := [] })]
      else
        dictOfList (((splitAtLevel content
            (pyMinList (scanDepths (splitLinesChars content.data) false))).map
          (normalizeSection
            ((pyMinList (scanDepths (splitLinesChars content.data) false) : Int) - 1))).map
          fun s => (makeKey s.title, s)) := by
  rw [parse]

/-- Parsing a grouped document yields one child-free level-1 section per group, in
source order, keyed by normalized title. -/
theorem parse_docLines {gs : List (List Char × List (List Char))}
    (hwf : ∀ g ∈ gs, GroupWF g) (hne : gs ≠ [])
    (hkeys : (gs.map fun g => makeKey ⟨g.1⟩).Nodup) :
    parse ⟨joinLinesChars (docLines gs)⟩
      = gs.map (fun g =>
          (makeKey ⟨g.1⟩, ⟨⟨g.1⟩, ⟨joinLinesChars g.2⟩, (1 : Int), []⟩)) := by
  have hsplit : splitLinesChars (joinLinesChars (docLines gs)) = docLines gs :=
    splitLinesChars_join (docLines_no_nl hwf) (docLines_getLast_ne_nil hne hwf)
  have hdepths : scanDepths (docLines gs) false = List.replicate gs.length 1 :=
    scanDepths_docLines hwf
  have htrim : trimChars (joinLinesChars (docLines gs)) ≠ [] := by
    intro h
    rw [trimChars_eq_nil_iff] at h
    cases gs with
    | nil => exact hne rfl
    | cons g rest =>
      have hmem : '#' ∈ joinLinesChars (docLines (g :: rest)) := by
        apply mem_joinLinesChars (l := '#' :: ' ' :: g.1)
        · exact List.mem_cons_self _ _
        · rw [docLines, List.flatMap_cons]
          exact List.mem_append.mpr (Or.inl (List.mem_cons_self _ _))
      exact absurd (h '#' hmem) (by decide)
  rw [parse_eq]
  rw [show (⟨joinLinesChars (docLines gs)⟩ : String).data
      = joinLinesChars (docLines gs) from rfl]
  rw [hsplit, hdepths]
  rw [if_neg htrim]
  cases gs with
  | nil => exact absurd rfl hne
  | cons g rest =>
    rw [if_neg (by rw [List.length_cons]; simp)]
    rw [List.length_cons, pyMinList_replicate_one]
    rw [show splitAtLevel (⟨joinLinesChars (docLines (g :: rest))⟩ : String) 1
        = splitAtLevelCore 5 ⟨joinLinesChars (docLines (g :: rest))⟩ 1 from rfl]
    rw [splitAtLevelCore_docLines hwf hne]
    rw [show ((1 : Nat) : Int) - 1 = 0 from rfl]
    rw [List.map_congr_left (fun s _ => normalizeSection_zero s)]
    rw [List.map_id', List.map_map]
    apply dictOfList_eq_self
    rw [List.map_map]
    exact hkeys

theorem processSection_identity_leaf (t c : String) (l : Int) :
    processSection (fun c _ _ => Except.ok c) ⟨t, c, l, []⟩ = .ok ⟨t, c, l, []⟩ := by
  rw [processSection]
  rw [show processSectionList (fun c _ _ => Except.ok c) [] = .ok [] from rfl]
  rw [except_bind_ok]
  by_cases hc : c ≠ ""
  · rw [if_pos hc]
    rfl
  · rw [if_neg hc]
    rfl

theorem processSectionList_identity_leaves :
    ∀ (lst : List (String × Section)), (∀ p ∈ lst, p.2.sections = []) →
      processSectionList (fun c _ _ => Except.ok c) lst = .ok lst := by
  intro lst
  induction lst with
  | nil => intro _; rfl
  | cons q rest ih =>
    intro h
    cases q with
    | mk k s =>
      cases s with
      | mk t c l subs =>
        have hsub : subs = [] := h (k, ⟨t, c, l, subs⟩) (List.mem_cons_self _ _)
        subst hsub
        rw [processSectionList]
        rw [processSection_identity_leaf, except_bind_ok]
        rw [ih (fun p hp => h p (List.mem_cons_of_mem _ hp)), except_bind_ok]
        rfl

theorem header_string_eq (t : List Char) :
    hashMarks 1 ++ " " ++ (⟨t⟩ : String) = (⟨'#' :: ' ' :: t⟩ : String) := rfl

theorem trim_join_ne_nil {b : List (List Char)}
    (hlead : stripLeadingLines b = b) (hbne : b ≠ []) :
    trimChars (joinLinesChars b) ≠ [] := by
  cases b with
  | nil => exact absurd rfl hbne
  | cons y ys =>
    obtain ⟨hy, _⟩ := stripLeadingLines_cons_fixed hlead
    intro h
    rw [trimChars_eq_nil_iff] at h
    exact hy (trimChars_eq_nil_iff.mpr
      (fun c hc => h c (mem_joinLinesChars hc (List.mem_cons_self _ _))))

theorem flattenSectionList_map_leaf
    (gs : List (List Char × List (List Char))) :
    flattenSectionList (gs.map (fun g =>
        (makeKey ⟨g.1⟩, ⟨⟨g.1⟩, ⟨joinLinesChars g.2⟩, (1 : Int), []⟩))) =
      gs.flatMap (fun g =>
        [hashMarks 1 ++ " " ++ (⟨g.1⟩ : String), ⟨joinLinesChars g.2⟩, "---"]) := by
  induction gs with
  | nil => rfl
  | cons g rest ih =>
    rw [List.map_cons, flattenSectionList, List.flatMap_cons]
    rw [ih]
    rfl

/-- Combining a list of child-free level-1 sections with nonblank titles and
contents emits heading, content and separator for each, joined by blank lines. -/
theorem combineSections_leaves {gs : List (List Char × List (List Char))}
    (hwf : ∀ g ∈ gs, GroupWF g) :
    combineSections (gs.map (fun g =>
        (makeKey ⟨g.1⟩, ⟨⟨g.1⟩, ⟨joinLinesChars g.2⟩, (1 : Int), []⟩))) =
      joinSep "\n\n" (gs.flatMap fun g =>
        [(⟨'#' :: ' ' :: g.1⟩ : String), ⟨joinLinesChars g.2⟩, "---"]) := by
  unfold combineSections
  rw [flattenSectionList_map_leaf]
  show joinSep "\n\n" ((gs.flatMap fun g =>
      [(⟨'#' :: ' ' :: g.1⟩ : String), ⟨joinLinesChars g.2⟩, "---"]).filter
        fun p => pyStrip p != "") = _
  rw [List.filter_eq_self.mpr ?_]
  intro x hx
  rw [List.mem_flatMap] at hx
  obtain ⟨g, hg, hm⟩ := hx
  obtain ⟨⟨ht1, ht2, _⟩, _, ⟨hlead, _⟩, hbne⟩ := hwf g hg
  simp only [List.mem_cons, List.not_mem_nil, or_false] at hm
  rcases hm with rfl | rfl | rfl
  · simp only [bne_iff_ne, ne_eq]
    intro he
    have hd := congrArg String.data he
    rw [show (pyStrip (⟨'#' :: ' ' :: g.1⟩ : String)).data
        = trimChars ('#' :: ' ' :: g.1) from rfl] at hd
    rw [trimChars_hash_space ht1 ht2] at hd
    exact absurd hd (by simp)
  · simp only [bne_iff_ne, ne_eq]
    intro he
    have hd := congrArg String.data he
    rw [show (pyStrip (⟨joinLinesChars g.2⟩ : String)).data
        = trimChars (joinLinesChars g.2) from rfl] at hd
    exact trim_join_ne_nil hlead hbne hd
  · decide

/-- C4: for a document of N ≥ 1 top-level headings with pairwise distinct normalized
titles and no nested headings, `summarize` with the identity oracle returns the same
N headings in source order, each followed by its body content unchanged (and the
`---` separator the combiner always adds).  Results are re-associated with their
section by key (`dict(zip(keys, processed))`), not by completion order, so the
output is completion-order independent by construction. -/
theorem summarize_identity_roundtrip (gs : List (List Char × List (List Char)))
    (hne : gs ≠ []) (hwf : ∀ g ∈ gs, GroupWF g)
    (hkeys : (gs.map fun g => makeKey ⟨g.1⟩).Nodup) :
    summarize (fun c _ _ => Except.ok c) ⟨joinLinesChars (docLines gs)⟩
      = .ok (joinSep "\n\n" (gs.flatMap fun g =>
          [(⟨'#' :: ' ' :: g.1⟩ : String), ⟨joinLinesChars g.2⟩, "---"])) := by
  have h1 := parse_docLines hwf hne hkeys
  have h2 : processSectionList (fun c _ _ => Except.ok c)
      (gs.map (fun g => (makeKey ⟨g.1⟩, ⟨⟨g.1⟩, ⟨joinLinesChars g.2⟩, (1 : Int), []⟩)))
      = .ok (gs.map (fun g =>
          (makeKey ⟨g.1⟩, ⟨⟨g.1⟩, ⟨joinLinesChars g.2⟩, (1 : Int), []⟩))) := by
    apply processSectionList_identity_leaves
    intro p hp
    rw [List.mem_map] at hp
    obtain ⟨g, _, he⟩ := hp
    rw [← he]
  rw [summarize]
  unfold processSections
  rw [h1, h2, except_bind_ok]
  rw [combineSections_leaves hwf]
  rfl

/-- Witness for `summarize_identity_roundtrip` on a two-section document. -/
theorem summarize_identity_roundtrip_witness :
    summarize (fun c _ _ => Except.ok c)
        ⟨joinLinesChars (docLines [("Alpha".data, ["one".data]), ("Beta".data, ["two".data])])⟩
      = .ok (joinSep "\n\n"
          ([("Alpha".data, ["one".data]), ("Beta".data, ["two".data])].flatMap fun g =>
            [(⟨'#' :: ' ' :: g.1⟩ : String), ⟨joinLinesChars g.2⟩, "---"])) :=
  summarize_identity_roundtrip _ (by decide)
    (by
      intro g hg
      rcases List.mem_cons.mp hg with rfl | hg'
      · exact ⟨by decide, by decide, by decide, by decide⟩
      · rcases List.mem_singleton.mp hg' with rfl
        exact ⟨by decide, by decide, by decide, by decide⟩)
    (by decide)

/-! ### C2: the level-skip behavior of `parse` -/

theorem headingRunDepth_pos {s : List Char} {n : Nat}
    (h : headingRunDepth s = some n) : 1 ≤ n := by
  simp only [headingRunDepth] at h
  by_cases hc : 1 ≤ (s.takeWhile (· = '#')).length ∧ (s.takeWhile (· = '#')).length ≤ 6 ∧
      s.drop (s.takeWhile (· = '#')).length ≠ [] ∧
      (s.drop (s.takeWhile (· = '#')).length).headI.isWhitespace = true
  · rw [if_pos hc] at h
    cases h
    exact hc.1
  · rw [if_neg hc] at h
    cases h

theorem headingRunDepth_of_matchHeadingTitle {s : List Char} {k : Nat} {tt : List Char}
    (hk1 : 1 ≤ k) (hk6 : k ≤ 6) (h : matchHeadingTitle k s = some tt) :
    headingRunDepth s = some k := by
  simp only [matchHeadingTitle] at h
  by_cases hc : s.take k = List.replicate k '#' ∧ s.drop k ≠ [] ∧
      (s.drop k).headI.isWhitespace = true ∧ (s.drop k).dropWhile Char.isWhitespace ≠ []
  · obtain ⟨htake, hdrop, hws, _⟩ := hc
    cases hd : s.drop k with
    | nil => exact absurd hd hdrop
    | cons c cs =>
      have hcw : c.isWhitespace = true := by
        rw [hd] at hws
        simpa [List.headI] using hws
      have hs : s = List.replicate k '#' ++ c :: cs := by
        have := List.take_append_drop k s
        rw [htake, hd] at this
        exact this.symm
      have htw : s.takeWhile (· = '#') = List.replicate k '#' := by
        rw [hs]
        exact takeWhile_hash_cons_ws k cs hcw
      simp only [headingRunDepth, htw, List.length_replicate]
      rw [if_pos]
      refine ⟨hk1, hk6, ?_, ?_⟩
      · rw [hs, List.drop_left' (by rw [List.length_replicate])]
        simp
      · rw [hs, List.drop_left' (by rw [List.length_replicate])]
        simpa [List.headI] using hcw
  · rw [if_neg hc] at h
    cases h

theorem scanDepths_mem_pos :
    ∀ (ls : List (List Char)) (b : Bool) (x : Nat), x ∈ scanDepths ls b → 1 ≤ x := by
  intro ls
  induction ls with
  | nil => intro b x h; cases h
  | cons l ls' ih =>
    intro b x h
    rw [scanDepths] at h
    by_cases hf : (trimChars l).take 3 = "```".data
    · rw [if_pos hf] at h
      exact ih _ _ h
    · rw [if_neg hf] at h
      cases b with
      | true =>
        simp only [if_true] at h
        exact ih _ _ h
      | false =>
        simp only [Bool.false_eq_true, if_false] at h
        cases hh : headingRunDepth (trimChars l) with
        | some n =>
          rw [hh] at h
          rcases List.mem_cons.mp h with rfl | h'
          · exact headingRunDepth_pos hh
          · exact ih _ _ h'
        | none =>
          rw [hh] at h
          exact ih _ _ h

theorem pyMinList_cons_one {ds : List Nat} (h : ∀ x ∈ ds, 1 ≤ x) :
    pyMinList (1 :: ds) = 1 := by
  rw [pyMinList]
  induction ds with
  | nil => rfl
  | cons d ds' ih =>
    rw [List.foldl_cons]
    rw [Nat.min_eq_left (h d (List.mem_cons_self _ _))]
    exact ih (fun x hx => h x (List.mem_cons_of_mem _ hx))

/-- C2 amended: when every heading in the body is at raw depth ≥ 3, a level-1
section gets no children at all — `_split_at_level` only matches depth exactly 2 —
and the skipped-level headings remain unsplit inside the parent's content at their
raw marker depth. -/
theorem parse_level_skip (t : List Char) (b : List (List Char))
    (ht1 : trimChars t = t) (ht2 : t ≠ []) (ht3 : '\n' ∉ t)
    (hb : ∀ l ∈ b, (trimChars l).take 3 ≠ "```".data ∧ '\n' ∉ l ∧
        (∀ d, headingRunDepth (trimChars l) = some d → 3 ≤ d))
    (hlead : stripLeadingLines b = b) (htrail : stripTrailingRev b.reverse = b.reverse)
    (hbne : b ≠ []) :
    parse ⟨joinLinesChars (('#' :: ' ' :: t) :: b)⟩
      = [(makeKey ⟨t⟩, ⟨⟨t⟩, ⟨joinLinesChars b⟩, (1 : Int), []⟩)] := by
  have htrim : trimChars ('#' :: ' ' :: t) = '#' :: ' ' :: t := trimChars_hash_space ht1 ht2
  have hnonl : ∀ l ∈ ('#' :: ' ' :: t) :: b, '\n' ∉ l := by
    intro l hl
    rcases List.mem_cons.mp hl with rfl | hl'
    · intro hc
      rcases List.mem_cons.mp hc with he | hc'
      · cases he
      · rcases List.mem_cons.mp hc' with he | hc''
        · cases he
        · exact ht3 hc''
    · exact (hb l hl').2.1
  have hlast : (('#' :: ' ' :: t) :: b).getLast? ≠ some [] := by
    rw [getLast?_cons_of_ne_nil _ hbne]
    exact body_getLast_ne_nil htrail hbne
  have hsplit : splitLinesChars (joinLinesChars (('#' :: ' ' :: t) :: b))
      = ('#' :: ' ' :: t) :: b := splitLinesChars_join hnonl hlast
  have hbodyskip1 : ∀ l ∈ b, (trimChars l).take 3 ≠ "```".data ∧
      matchHeadingTitle 1 (trimChars l) = none := by
    intro l hl
    refine ⟨(hb l hl).1, ?_⟩
    cases hm : matchHeadingTitle 1 (trimChars l) with
    | none => rfl
    | some tt =>
      have := headingRunDepth_of_matchHeadingTitle (by decide) (by decide) hm
      have h3 := (hb l hl).2.2 1 this
      omega
  have hbodyskip2 : ∀ l ∈ b, (trimChars l).take 3 ≠ "```".data ∧
      matchHeadingTitle 2 (trimChars l) = none := by
    intro l hl
    refine ⟨(hb l hl).1, ?_⟩
    cases hm : matchHeadingTitle 2 (trimChars l) with
    | none => rfl
    | some tt =>
      have := headingRunDepth_of_matchHeadingTitle (by decide) (by decide) hm
      have h3 := (hb l hl).2.2 2 this
      omega
  have hdep : scanDepths (('#' :: ' ' :: t) :: b) false
      = 1 :: scanDepths b false := by
    exact scanDepths_heading (by rw [htrim]; exact hash_take_ne_fence _)
      (by rw [htrim]; exact headingRunDepth_hash_space _)
  have hbrt : splitLinesChars (joinLinesChars b) = b :=
    splitLinesChars_join (fun l hl => (hb l hl).2.1) (body_getLast_ne_nil htrail hbne)
  have htrimdoc : trimChars (joinLinesChars (('#' :: ' ' :: t) :: b)) ≠ [] := by
    intro h
    rw [trimChars_eq_nil_iff] at h
    exact absurd (h '#' (mem_joinLinesChars (List.mem_cons_self _ _)
      (List.mem_cons_self _ _))) (by decide)
  rw [parse_eq]
  rw [show (⟨joinLinesChars (('#' :: ' ' :: t) :: b)⟩ : String).data
      = joinLinesChars (('#' :: ' ' :: t) :: b) from rfl]
  rw [hsplit, hdep]
  rw [if_neg htrimdoc]
  rw [if_neg (by simp)]
  rw [pyMinList_cons_one (fun x hx => scanDepths_mem_pos _ _ _ hx)]
  rw [show splitAtLevel (⟨joinLinesChars (('#' :: ' ' :: t) :: b)⟩ : String) 1
      = splitAtLevelCore 5 ⟨joinLinesChars (('#' :: ' ' :: t) :: b)⟩ 1 from rfl]
  have hpos : scanHeadPositions 1 (('#' :: ' ' :: t) :: b) 0 false = [(0, t)] := by
    rw [scanHeadPositions_heading (by rw [htrim]; exact hash_take_ne_fence _)
      (by rw [htrim]; exact matchHeadingTitle_hash_space ht1 ht2)]
    rw [scanHeadPositions_nil_of_skips hbodyskip1]
  have hcore : splitAtLevelCore 5 ⟨joinLinesChars (('#' :: ' ' :: t) :: b)⟩ 1
      = [⟨⟨t⟩, ⟨joinLinesChars b⟩, (1 : Int), []⟩] := by
    rw [splitAtLevelCore_eq]
    rw [show (⟨joinLinesChars (('#' :: ' ' :: t) :: b)⟩ : String).data
        = joinLinesChars (('#' :: ' ' :: t) :: b) from rfl]
    rw [hsplit, hpos]
    rw [show chunkRanges [(0, t)] (('#' :: ' ' :: t) :: b).length
        = [(0, (('#' :: ' ' :: t) :: b).length, t)] from rfl]
    rw [List.map_cons, List.map_nil]
    congr 1
    rw [show ((('#' :: ' ' :: t) :: b).drop 0) = ('#' :: ' ' :: t) :: b from rfl]
    rw [show (('#' :: ' ' :: t) :: b).length - 0 = (('#' :: ' ' :: t) :: b).length from by omega]
    rw [List.take_length]
    rw [stripLines_chunk htrim (by rw [htrim]; simp) hlead htrail]
    rw [show ((('#' :: ' ' :: t) :: b).drop 1) = b from rfl]
    have hsub : splitAtLevelCore 4 (⟨joinLinesChars b⟩ : String) 2 = [] := by
      apply splitAtLevelCore_eq_nil
      rw [show ((⟨joinLinesChars b⟩ : String)).data = joinLinesChars b from rfl]
      rw [hbrt]
      exact scanHeadPositions_nil_of_skips hbodyskip2
    rw [show (match (5 : Nat) with
        | 0 => ([] : List Section)
        | f + 1 => if 1 < 6 then splitAtLevelCore f (⟨joinLinesChars b⟩ : String) 2 else [])
        = if 1 < 6 then splitAtLevelCore 4 (⟨joinLinesChars b⟩ : String) 2 else [] from rfl]
    rw [if_pos (by norm_num), hsub]
    rfl
  rw [hcore]
  rw [show ((1 : Nat) : Int) - 1 = 0 from rfl]
  rw [List.map_cons, List.map_nil, normalizeSection_zero]
  rfl

/-- C2 counterexample: a level-1 heading followed directly by a level-3 heading does
not get the deeper section attached as a child at level 2: the parsed section has no
children and the `### B` heading line stays inside its content. -/
theorem parse_level_skip_counterexample :
    parse "# A\n### B\nbody" = [("a", ⟨"A", "### B\nbody", 1, []⟩)] ∧
    (parse "# A\n### B\nbody").all (fun p => p.2.sections.isEmpty) = true :=
  ⟨rfl, rfl⟩

/-- Witness for `parse_level_skip` on a concrete skipping document. -/
theorem parse_level_skip_witness :
    parse ⟨joinLinesChars (('#' :: ' ' :: "A".data) :: ["### B".data, "body".data])⟩
      = [(makeKey ⟨"A".data⟩,
          ⟨⟨"A".data⟩, ⟨joinLinesChars ["### B".data, "body".data]⟩, (1 : Int), []⟩)] :=
  parse_level_skip "A".data ["### B".data, "body".data]
    (by decide) (by decide) (by decide)
    (by
      intro l hl
      rcases List.mem_cons.mp hl with rfl | hl'
      · exact ⟨by decide, by decide, by decide⟩
      · rcases List.mem_singleton.mp hl' with rfl
        exact ⟨by decide, by decide, by decide⟩)
    (by decide) (by decide) (by decide)

/-! ### C6: code-fence immunity -/

/-- C6 counterexample: a heading marker inside a tilde fence, or in indented code,
is treated as a structural heading — `~~~` does not toggle the fence flag and
indented lines are stripped before matching — so both inputs produce a section
boundary instead of a single fenced-content root. -/
theorem fence_immunity_counterexample :
    parse "~~~\n# X\n~~~" = [("x", ⟨"X", "~~~", 1, []⟩)] ∧
    parse "    # hi" = [("hi", ⟨"hi", "", 1, []⟩)] :=
  ⟨rfl, rfl⟩

/-- C6 amended: only triple-backtick lines toggle the fence flag, and inside such a
fence heading-marker lines are fully immune — they contribute neither to the
minimum-level scan nor to any section boundary: a heading followed by a backtick
fence containing arbitrary heading-like lines parses to a single child-free section
holding the fence verbatim.  Tilde fences and indented code are not recognized. -/
theorem parse_backtick_fence_immune (t : List Char) (inner : List (List Char))
    (ht1 : trimChars t = t) (ht2 : t ≠ []) (ht3 : '\n' ∉ t)
    (hin : ∀ l ∈ inner, (trimChars l).take 3 ≠ "```".data ∧ '\n' ∉ l) :
    parse ⟨joinLinesChars (('#' :: ' ' :: t) :: "```".data :: (inner ++ ["```".data]))⟩
      = [(makeKey ⟨t⟩,
          ⟨⟨t⟩, ⟨joinLinesChars ("```".data :: (inner ++ ["```".data]))⟩, (1 : Int), []⟩)] := by
  have htrim : trimChars ('#' :: ' ' :: t) = '#' :: ' ' :: t := trimChars_hash_space ht1 ht2
  have hfencetrim : trimChars "```".data = "```".data := by decide
  have hfencetake : (trimChars "```".data).take 3 = "```".data := by decide
  have hnonl : ∀ l ∈ ('#' :: ' ' :: t) :: "```".data :: (inner ++ ["```".data]), '\n' ∉ l := by
    intro l hl
    rcases List.mem_cons.mp hl with rfl | hl'
    · intro hc
      rcases List.mem_cons.mp hc with he | hc'
      · cases he
      · rcases List.mem_cons.mp hc' with he | hc''
        · cases he
        · exact ht3 hc''
    · rcases List.mem_cons.mp hl' with rfl | hl''
      · decide
      · rcases List.mem_append.mp hl'' with hm | hm
        · exact (hin l hm).2
        · rcases List.mem_singleton.mp hm with rfl
          decide
  have hlastinner : (inner ++ ["```".data]).getLast? = some "```".data := by
    rw [getLast?_append_of_ne_nil _ (by simp)]
    rfl
  have hlast : (('#' :: ' ' :: t) :: "```".data :: (inner ++ ["```".data])).getLast?
      ≠ some [] := by
    rw [getLast?_cons_of_ne_nil _ (by simp)]
    rw [getLast?_cons_of_ne_nil _ (by simp)]
    rw [hlastinner]
    intro h
    cases h
  have hsplit : splitLinesChars
      (joinLinesChars (('#' :: ' ' :: t) :: "```".data :: (inner ++ ["```".data])))
      = ('#' :: ' ' :: t) :: "```".data :: (inner ++ ["```".data]) :=
    splitLinesChars_join hnonl hlast
  have hinfence : ∀ l ∈ inner, (trimChars l).take 3 ≠ "```".data := fun l hl => (hin l hl).1
  have hdep : scanDepths (('#' :: ' ' :: t) :: "```".data :: (inner ++ ["```".data])) false
      = [1] := by
    rw [scanDepths_heading (by rw [htrim]; exact hash_take_ne_fence _)
      (by rw [htrim]; exact headingRunDepth_hash_space _)]
    rw [scanDepths_fence hfencetake]
    rw [show (!false) = true from rfl]
    rw [scanDepths_append_incode hinfence]
    rw [scanDepths_fence hfencetake]
    rfl
  have hpos : scanHeadPositions 1
      (('#' :: ' ' :: t) :: "```".data :: (inner ++ ["```".data])) 0 false = [(0, t)] := by
    rw [scanHeadPositions_heading (by rw [htrim]; exact hash_take_ne_fence _)
      (by rw [htrim]; exact matchHeadingTitle_hash_space ht1 ht2)]
    rw [scanHeadPositions_fence hfencetake]
    rw [show (!false) = true from rfl]
    rw [scanHeadPositions_append_incode hinfence]
    rw [scanHeadPositions_fence hfencetake]
    rfl
  have hbrev : ("```".data :: (inner ++ ["```".data])).reverse
      = "```".data :: (inner.reverse ++ ["```".data]) := by
    simp
  have hlead : stripLeadingLines ("```".data :: (inner ++ ["```".data]))
      = "```".data :: (inner ++ ["```".data]) :=
    stripLeadingLines_cons_of_nonblank (by decide) (by decide)
  have htrail : stripTrailingRev ("```".data :: (inner ++ ["```".data])).reverse
      = ("```".data :: (inner ++ ["```".data])).reverse := by
    rw [hbrev]
    exact stripTrailingRev_cons_of_nonblank (by decide) (by decide)
  have hbrt : splitLinesChars (joinLinesChars ("```".data :: (inner ++ ["```".data])))
      = "```".data :: (inner ++ ["```".data]) :=
    splitLinesChars_join (fun l hl => hnonl l (List.mem_cons_of_mem _ hl))
      (by
        rw [getLast?_cons_of_ne_nil _ (by simp), hlastinner]
        intro h
        cases h)
  have htrimdoc : trimChars
      (joinLinesChars (('#' :: ' ' :: t) :: "```".data :: (inner ++ ["```".data]))) ≠ [] := by
    intro h
    rw [trimChars_eq_nil_iff] at h
    exact absurd (h '#' (mem_joinLinesChars (List.mem_cons_self _ _)
      (List.mem_cons_self _ _))) (by decide)
  rw [parse_eq]
  rw [show (⟨joinLinesChars (('#' :: ' ' :: t) :: "```".data :: (inner ++ ["```".data]))⟩ :
      String).data
      = joinLinesChars (('#' :: ' ' :: t) :: "```".data :: (inner ++ ["```".data])) from rfl]
  rw [hsplit, hdep]
  rw [if_neg htrimdoc]
  rw [if_neg (by simp)]
  rw [show pyMinList [1] = 1 from rfl]
  rw [show splitAtLevel
      (⟨joinLinesChars (('#' :: ' ' :: t) :: "```".data :: (inner ++ ["```".data]))⟩ : String) 1
      = splitAtLevelCore 5
        ⟨joinLinesChars (('#' :: ' ' :: t) :: "```".data :: (inner ++ ["```".data]))⟩ 1 from rfl]
  have hcore : splitAtLevelCore 5
      ⟨joinLinesChars (('#' :: ' ' :: t) :: "```".data :: (inner ++ ["```".data]))⟩ 1
      = [⟨⟨t⟩, ⟨joinLinesChars ("```".data :: (inner ++ ["```".data]))⟩, (1 : Int), []⟩] := by
    rw [splitAtLevelCore_eq]
    rw [show (⟨joinLinesChars (('#' :: ' ' :: t) :: "```".data :: (inner ++ ["```".data]))⟩ :
        String).data
        = joinLinesChars (('#' :: ' ' :: t) :: "```".data :: (inner ++ ["```".data])) from rfl]
    rw [hsplit, hpos]
    rw [show chunkRanges [(0, t)]
        ((('#' :: ' ' :: t) :: "```".data :: (inner ++ ["```".data])).length)
        = [(0, (('#' :: ' ' :: t) :: "```".data :: (inner ++ ["```".data])).length, t)] from rfl]
    rw [List.map_cons, List.map_nil]
    congr 1
    rw [show ((('#' :: ' ' :: t) :: "```".data :: (inner ++ ["```".data])).drop 0)
        = ('#' :: ' ' :: t) :: "```".data :: (inner ++ ["```".data]) from rfl]
    rw [show (('#' :: ' ' :: t) :: "```".data :: (inner ++ ["```".data])).length - 0
        = (('#' :: ' ' :: t) :: "```".data :: (inner ++ ["```".data])).length from by omega]
    rw [List.take_length]
    rw [stripLines_chunk htrim (by rw [htrim]; simp) hlead htrail]
    rw [show ((('#' :: ' ' :: t) :: "```".data :: (inner ++ ["```".data])).drop 1)
        = "```".data :: (inner ++ ["```".data]) from rfl]
    have hsub : splitAtLevelCore 4
        (⟨joinLinesChars ("```".data :: (inner ++ ["```".data]))⟩ : String) 2 = [] := by
      apply splitAtLevelCore_eq_nil
      rw [show ((⟨joinLinesChars ("```".data :: (inner ++ ["```".data]))⟩ : String)).data
          = joinLinesChars ("```".data :: (inner ++ ["```".data])) from rfl]
      rw [hbrt]
      rw [scanHeadPositions_fence hfencetake]
      rw [show (!false) = true from rfl]
      rw [scanHeadPositions_append_incode hinfence]
      rw [scanHeadPositions_fence hfencetake]
      rfl
    rw [show (match (5 : Nat) with
        | 0 => ([] : List Section)
        | f + 1 => if 1 < 6 then splitAtLevelCore f
            (⟨joinLinesChars ("```".data :: (inner ++ ["```".data]))⟩ : String) 2 else [])
        = if 1 < 6 then splitAtLevelCore 4
            (⟨joinLinesChars ("```".data :: (inner ++ ["```".data]))⟩ : String) 2
          else [] from rfl]
    rw [if_pos (by norm_num), hsub]
    rfl
  rw [hcore]
  rw [show ((1 : Nat) : Int) - 1 = 0 from rfl]
  rw [List.map_cons, List.map_nil, normalizeSection_zero]
  rfl

/-- Witness for `parse_backtick_fence_immune`: a heading-marker line inside a
backtick fence creates no boundary. -/
theorem parse_backtick_fence_immune_witness :
    parse ⟨joinLinesChars (('#' :: ' ' :: "T".data) :: "```".data
        :: (["# comment".data] ++ ["```".data]))⟩
      = [(makeKey ⟨"T".data⟩,
          ⟨⟨"T".data⟩,
           ⟨joinLinesChars ("```".data :: (["# comment".data] ++ ["```".data]))⟩,
           (1 : Int), []⟩)] :=
  parse_backtick_fence_immune "T".data ["# comment".data]
    (by decide) (by decide) (by decide)
    (by
      intro l hl
      rcases List.mem_singleton.mp hl with rfl
      exact ⟨by decide, by decide⟩)

/-! ### C9: the oracle is never consulted on blank content -/

theorem trimChars_trimRight_ne_nil {l : List Char} (h : trimChars l ≠ []) :
    trimChars (trimRightChars l) ≠ [] := by
  intro hr
  apply h
  rw [trimChars_eq_nil_iff] at hr ⊢
  intro c hc
  have hsplit := List.takeWhile_append_dropWhile
    (p := Char.isWhitespace) (l := l.reverse)
  have hc' : c ∈ l.reverse := List.mem_reverse.mpr hc
  rw [← hsplit] at hc'
  rcases List.mem_append.mp hc' with hm | hm
  · exact List.mem_takeWhile_imp hm
  · apply hr
    unfold trimRightChars
    exact List.mem_reverse.mpr hm

theorem stripTrailingRev_head_nonblank :
    ∀ {Z : List (List Char)} {y : List Char} {ys : List (List Char)},
      stripTrailingRev Z = y :: ys → trimChars y ≠ [] := by
  intro Z
  induction Z with
  | nil => intro y ys h; cases h
  | cons l Z' ih =>
    intro y ys h
    rw [stripTrailingRev] at h
    by_cases hb : trimChars l = []
    · rw [if_pos hb] at h
      exact ih h
    · rw [if_neg hb] at h
      have hy : y = trimRightChars l := (List.cons.injEq _ _ _ _ ▸ h).1.symm
      rw [hy]
      exact trimChars_trimRight_ne_nil hb

theorem stripLines_drop_one_wf (chunkLines : List (List Char)) :
    (stripLines chunkLines).drop 1 = [] ∨
    trimChars (joinLinesChars ((stripLines chunkLines).drop 1)) ≠ [] := by
  cases hdrop : (stripLines chunkLines).drop 1 with
  | nil => exact Or.inl rfl
  | cons c1 rest =>
    right
    cases hout : stripLines chunkLines with
    | nil =>
      rw [hout] at hdrop
      cases hdrop
    | cons o0 outt =>
      rw [hout] at hdrop
      simp only [List.drop_succ_cons, List.drop_zero] at hdrop
      subst hdrop
      have hrev : (stripLines chunkLines).reverse
          = stripTrailingRev (stripLeadingLines chunkLines).reverse := by
        unfold stripLines
        rw [List.reverse_reverse]
      cases hst : stripTrailingRev (stripLeadingLines chunkLines).reverse with
      | nil =>
        rw [hst] at hrev
        rw [hout] at hrev
        simp at hrev
      | cons y ys =>
        have hynb : trimChars y ≠ [] := stripTrailingRev_head_nonblank hst
        have hlast : (stripLines chunkLines).getLast? = some y := by
          rw [List.getLast?_eq_head?_reverse, hrev, hst]
          rfl
        have hmem : y ∈ c1 :: rest := by
          rw [hout] at hlast
          rw [getLast?_cons_of_ne_nil _ (by simp)] at hlast
          exact List.mem_of_mem_getLast? hlast
        obtain ⟨ch, hch, hchw⟩ : ∃ ch ∈ y, ch.isWhitespace = false := by
          by_contra hall
          push_neg at hall
          exact hynb (trimChars_eq_nil_iff.mpr (fun ch hc => by
            have := hall ch hc
            cases hcw : ch.isWhitespace with
            | true => rfl
            | false => exact absurd hcw this))
        intro hj
        rw [trimChars_eq_nil_iff] at hj
        rw [hj ch (mem_joinLinesChars hch hmem)] at hchw
        cases hchw

theorem contentWF_of_mem_splitAtLevelCore :
    ∀ (fuel : Nat) (content : String) (level : Nat) (s : Section),
      s ∈ splitAtLevelCore fuel content level → ContentWF s := by
  intro fuel
  induction fuel with
  | zero =>
    intro content level s h
    rw [splitAtLevelCore] at h
    simp only [List.mem_map] at h
    obtain ⟨r, _, he⟩ := h
    refine ContentWF.mk s ?_ ?_
    · rw [← he]
      rcases stripLines_drop_one_wf
          (((splitLinesChars content.data).drop r.1).take (r.2.1 - r.1)) with h1 | h1
      · left
        simp only
        rw [h1]
        rfl
      · right
        exact h1
    · intro p hp
      rw [← he] at hp
      simp only [List.map_nil] at hp
      cases mem_dictOfList hp
  | succ f ih =>
    intro content level s h
    rw [splitAtLevelCore] at h
    simp only [List.mem_map] at h
    obtain ⟨r, _, he⟩ := h
    refine ContentWF.mk s ?_ ?_
    · rw [← he]
      rcases stripLines_drop_one_wf
          (((splitLinesChars content.data).drop r.1).take (r.2.1 - r.1)) with h1 | h1
      · left
        simp only
        rw [h1]
        rfl
      · right
        exact h1
    · intro p hp
      rw [← he] at hp
      simp only at hp
      have hp' := mem_dictOfList hp
      simp only [List.mem_map] at hp'
      obtain ⟨s', hs', hpe⟩ := hp'
      by_cases hl : level < 6
      · rw [if_pos hl] at hs'
        rw [← hpe]
        exact ih _ _ s' hs'
      · rw [if_neg hl] at hs'
        cases hs'

theorem contentWF_normalize (adj : Int) :
    ∀ (s : Section), ContentWF s → ContentWF (normalizeSection adj s) := by
  intro s h
  induction h with
  | mk s hc _ ih =>
    refine ContentWF.mk _ ?_ ?_
    · rw [normalizeSection_content]
      exact hc
    · intro p hpm
      rw [normalizeSection_sections] at hpm
      obtain ⟨q, hq, hqe⟩ := mem_normalizeSubs hpm
      rw [hqe]
      exact ih q hq

theorem contentWF_of_mem_parse (doc : String) :
    ∀ p ∈ parse doc, ContentWF p.2 := by
  intro p hp
  rw [parse_eq] at hp
  by_cases htrim : trimChars doc.data = []
  · rw [if_pos htrim] at hp
    cases hp
  · rw [if_neg htrim] at hp
    by_cases hdep : scanDepths (splitLinesChars doc.data) false = []
    · rw [if_pos hdep] at hp
      rcases List.mem_singleton.mp hp with rfl
      refine ContentWF.mk _ (Or.inr htrim) ?_
      intro q hq
      cases hq
    · rw [if_neg hdep] at hp
      have hp' := mem_dictOfList hp
      simp only [List.mem_map] at hp'
      obtain ⟨s, hs, hpe⟩ := hp'
      obtain ⟨s0, hs0, hse⟩ := hs
      unfold splitAtLevel at hs0
      rw [← hpe]
      simp only
      rw [← hse]
      exact contentWF_normalize _ _ (contentWF_of_mem_splitAtLevelCore _ _ _ _ hs0)

mutual
theorem processSection_congr (o₁ o₂ : Oracle)
    (hag : ∀ c l cs, pyStrip c ≠ "" → o₁ c l cs = o₂ c l cs) :
    ∀ (s : Section), ContentWF s → processSection o₁ s = processSection o₂ s
  | ⟨t, c, l, subs⟩, hwf => by
    have hsubs : ∀ p ∈ subs, ContentWF p.2 := by
      cases hwf with
      | mk _ _ hc => exact hc
    have hcc : c = "" ∨ trimChars c.data ≠ [] := by
      cases hwf with
      | mk _ hc _ => exact hc
    rw [processSection, processSection]
    rw [← processSectionList_congr o₁ o₂ hag subs hsubs]
    cases hk : processSectionList o₁ subs with
    | error e => rfl
    | ok kids =>
      rw [except_bind_ok, except_bind_ok]
      by_cases hc : c ≠ ""
      · rw [if_pos hc, if_pos hc]
        have hstrip : pyStrip c ≠ "" := by
          rcases hcc with h1 | h1
          · exact absurd h1 hc
          · intro he
            exact h1 (by simpa using congrArg String.data he)
        rw [hag c l _ hstrip]
      · rw [if_neg hc, if_neg hc]
theorem processSectionList_congr (o₁ o₂ : Oracle)
    (hag : ∀ c l cs, pyStrip c ≠ "" → o₁ c l cs = o₂ c l cs) :
    ∀ (lst : List (String × Section)), (∀ p ∈ lst, ContentWF p.2) →
      processSectionList o₁ lst = processSectionList o₂ lst
  | [], _ => rfl
  | (k, s) :: rest, hwf => by
    rw [processSectionList, processSectionList]
    rw [← processSection_congr o₁ o₂ hag s (hwf (k, s) (List.mem_cons_self _ _))]
    cases hh : processSection o₁ s with
    | error e => rfl
    | ok s' =>
      rw [except_bind_ok, except_bind_ok]
      rw [← processSectionList_congr o₁ o₂ hag rest
        (fun p hp => hwf p (List.mem_cons_of_mem _ hp))]
end

/-- C9: during `summarize` the oracle is never invoked with blank or
whitespace-only content — any two oracles agreeing on non-blank inputs produce
identical results on every document (empty contents are short-circuited before the
oracle boundary, and parsed contents are never whitespace-only) — while
`summarize_section` itself fails fast with its empty-content error when called with
empty or whitespace-only content. -/
theorem oracle_never_called_on_blank (o₁ o₂ : Oracle)
    (hag : ∀ c l cs, pyStrip c ≠ "" → o₁ c l cs = o₂ c l cs) :
    (∀ doc, summarize o₁ doc = summarize o₂ doc) ∧
    (∀ (est : String → Nat) (mt : Nat) mdl (c : String) (l : Int) cs,
      c = "" ∨ pyStrip c = "" →
      summarizeSection est mt mdl c l cs = .error "content cannot be empty") := by
  constructor
  · intro doc
    rw [summarize, summarize]
    unfold processSections
    rw [processSectionList_congr o₁ o₂ hag (parse doc) (contentWF_of_mem_parse doc)]
  · intro est mt mdl c l cs h
    rw [summarizeSection, if_pos h]

/-- Witness for `oracle_never_called_on_blank` with a concrete oracle pair that
differs only on blank content. -/
theorem oracle_never_called_on_blank_witness :
    ((∀ doc, summarize (fun c _ _ => Except.ok c) doc
        = summarize (fun c _ _ => if pyStrip c = "" then .error "blank" else .ok c) doc) ∧
     (∀ (est : String → Nat) (mt : Nat) mdl (c : String) (l : Int) cs,
        c = "" ∨ pyStrip c = "" →
        summarizeSection est mt mdl c l cs = .error "content cannot be empty")) ∧
    summarizeSection (fun _ => 0) 10 (fun c _ _ => Except.ok c) " " 1 none
      = .error "content cannot be empty" := by
  have hmain := oracle_never_called_on_blank
    (fun c _ _ => Except.ok c)
    (fun c _ _ => if pyStrip c = "" then .error "blank" else .ok c)
    (by
      intro c l cs h
      show Except.ok c = if pyStrip c = "" then Except.error "blank" else Except.ok c
      rw [if_neg h])
  exact ⟨hmain, hmain.2 _ _ _ " " 1 none (Or.inr rfl)⟩

end MD
